import Mathlib

/-!
Verification of the `simple-lexer` scanner.

The Rust sources (`src/lexer.rs`, `src/lexer/token.rs`,
`src/lexer/character_helpers.rs`) are shallowly embedded below.  The input
string is modelled as a `List Char`; byte offsets are tracked explicitly via
`Char.utf8Size`, matching Rust's byte-indexed string slicing.  Fallible
operations (Rust `&str` range indexing, which panics when an index is out of
bounds or not on a character boundary, and the `unreachable!` assertions)
are modelled with `Option`: a `none` result of the lexer corresponds to a
run of the Rust code that panics.
-/

namespace SimpleLexer

/-! ## Token model (`src/lexer/token.rs`) -/

/-- `Span { length, start }` from `token.rs`. -/
structure Span where
  length : Nat
  start : Nat
  deriving DecidableEq, Repr

/-- `StringKind` from `token.rs`. -/
inductive StringKind where
  | singleQuoted
  | doubleQuoted
  deriving DecidableEq, Repr

/-- `OperatorKind` from `token.rs` (source spelling `Substract` kept). -/
inductive OperatorKind where
  | add
  | substract
  | multiply
  | divide
  | modulo
  | compoundAdd
  | compoundSubstract
  | compoundMultiply
  | compoundDivide
  | compoundModulo
  | increment
  | decrement
  | doubleEqual
  | equal
  | notEqual
  | not
  | greaterThan
  | lessThan
  | invalid
  deriving DecidableEq, Repr

/-- `TokenKind` from `token.rs`. -/
inductive TokenKind where
  | string (k : StringKind)
  | operator (k : OperatorKind)
  | keyword
  | number
  | identifier
  | whitespace
  | semicolon
  | invalid
  deriving DecidableEq, Repr

/-- `Token { kind, span }` from `token.rs`. -/
structure Token where
  kind : TokenKind
  span : Span
  deriving DecidableEq, Repr

/-- `create_token` from `token.rs`. -/
def create_token (kind : TokenKind) (start length : Nat) : Token :=
  { kind := kind, span := { start := start, length := length } }

/-- `match_operator_slice_to_operator_kind` from `token.rs`: a `match` on the
1- or 2-character operator slice, falling through to `Invalid`. -/
def match_operator_slice_to_operator_kind (operator : List Char) : OperatorKind :=
  if operator = ['+'] then .add
  else if operator = ['-'] then .substract
  else if operator = ['*'] then .multiply
  else if operator = ['/'] then .divide
  else if operator = ['='] then .equal
  else if operator = ['%'] then .modulo
  else if operator = ['!', '='] then .notEqual
  else if operator = ['!'] then .not
  else if operator = ['>'] then .greaterThan
  else if operator = ['<'] then .lessThan
  else if operator = ['+', '='] then .compoundAdd
  else if operator = ['-', '='] then .compoundSubstract
  else if operator = ['*', '='] then .compoundMultiply
  else if operator = ['/', '='] then .compoundDivide
  else if operator = ['%', '='] then .compoundModulo
  else if operator = ['=', '='] then .doubleEqual
  else if operator = ['+', '+'] then .increment
  else if operator = ['-', '-'] then .decrement
  else .invalid

/-! ## Character classifier (`src/lexer/character_helpers.rs`)

Every helper in the Rust file is applied by the scanner to a single `char`
(the `.chars().all(..)` wrapper over a one-character slice reduces to the
per-character predicate). -/

/-- `is_keyword` from `character_helpers.rs`. -/
def is_keyword (s : List Char) : Bool :=
  s == "let".data || s == "const".data || s == "if".data || s == "else".data ||
  s == "while".data || s == "for".data || s == "function".data || s == "mmk".data

/-- `is_digit` (`char::is_ascii_digit`). -/
def is_digit (c : Char) : Bool := c.isDigit

/-- `is_letter` (`char::is_ascii_alphabetic`). -/
def is_letter (c : Char) : Bool := c.isAlpha

/-- `is_operator` from `character_helpers.rs`. -/
def is_operator (c : Char) : Bool :=
  c == '+' || c == '-' || c == '*' || c == '/' || c == '=' || c == '!' ||
  c == '<' || c == '>' || c == '%'

/-- `is_single_quote`. -/
def is_single_quote (c : Char) : Bool := c == '\''

/-- `is_double_quote`. -/
def is_double_quote (c : Char) : Bool := c == '"'

/-- `is_semicolon`. -/
def is_semicolon (c : Char) : Bool := c == ';'

/-- `is_whitespace` (`char::is_whitespace`, the Unicode `White_Space`
property, written out code point by code point). -/
def is_whitespace (c : Char) : Bool :=
  c.val == 0x09 || c.val == 0x0A || c.val == 0x0B || c.val == 0x0C ||
  c.val == 0x0D || c.val == 0x20 || c.val == 0x85 || c.val == 0xA0 ||
  c.val == 0x1680 || (0x2000 ≤ c.val && c.val ≤ 0x200A) ||
  c.val == 0x2028 || c.val == 0x2029 || c.val == 0x202F ||
  c.val == 0x205F || c.val == 0x3000

/-- `is_in_identifier` (`char::is_ascii_alphanumeric` or `'_'`). -/
def is_in_identifier (c : Char) : Bool := c.isAlphanum || c == '_'

/-! ## Byte-indexed slicing

Rust `&str` slices are by byte index; `&input[s..e]` panics when an index is
out of bounds or not on a character boundary.  `byteSlice` reproduces this:
`none` models the panic. -/

/-- Total UTF-8 byte length of a character list (Rust `str::len`). -/
def byteLen : List Char → Nat
  | [] => 0
  | c :: cs => c.utf8Size + byteLen cs

/-- Drop the first `n` bytes; `none` if `n` overruns the list or falls
inside a character. -/
def dropToByte : List Char → Nat → Option (List Char)
  | l, 0 => some l
  | [], _ + 1 => none
  | c :: cs, n + 1 =>
    if c.utf8Size ≤ n + 1 then dropToByte cs (n + 1 - c.utf8Size) else none

/-- Take the first `n` bytes; `none` if `n` overruns the list or falls
inside a character. -/
def takeToByte : List Char → Nat → Option (List Char)
  | _, 0 => some []
  | [], _ + 1 => none
  | c :: cs, n + 1 =>
    if c.utf8Size ≤ n + 1 then
      (takeToByte cs (n + 1 - c.utf8Size)).map (c :: ·)
    else none

/-- Rust `&input[s..e]`. -/
def byteSlice (l : List Char) (s e : Nat) : Option (List Char) :=
  if s ≤ e then (dropToByte l s).bind (fun l' => takeToByte l' (e - s))
  else none

/-! ## Scanner state (`src/lexer.rs`) -/

/-- `StringState` from `lexer.rs`. -/
inductive StringState where
  | inSingleQuote
  | inDoubleQuote
  deriving DecidableEq, Repr

/-- `State` from `lexer.rs`. -/
inductive State where
  | start
  | inNumber
  | inString (s : StringState)
  | inIdentifier
  | inOperator
  deriving DecidableEq, Repr

/-- `LexerErrorKind` from `lexer.rs`. -/
inductive LexerErrorKind where
  | invalidToken
  | invalidOperator
  deriving DecidableEq, Repr

/-- `LexerError { span, kind }` from `lexer.rs`. -/
structure LexerError where
  span : Span
  kind : LexerErrorKind
  deriving DecidableEq, Repr

/-- The `StringKind` selected for a finished literal by the `match` in the
`State::InString` arm of `consume_buffered_token`. -/
def stringKindOf : StringState → StringKind
  | .inSingleQuote => .singleQuoted
  | .inDoubleQuote => .doubleQuoted

/-- The closing-quote test selected by the `match` in `handle_in_string`. -/
def stringClosePred (ss : StringState) (c : Char) : Bool :=
  match ss with
  | .inSingleQuote => is_single_quote c
  | .inDoubleQuote => is_double_quote c

/-- The mutable fields of `Lexer` (plus the attached `ErrorHandler`'s error
list).  The code-point cursor of the Rust struct is replaced by recursion on
the remaining character list; the byte index `current_character_byte_index`
is passed to each handler as `pos`. -/
structure Machine where
  state : State
  bufferedTokenStart : Nat
  tokens : List Token
  errors : List LexerError
  deriving DecidableEq, Repr

/-- `Lexer::new` / `ErrorHandler::new`. -/
def initMachine : Machine :=
  { state := .start, bufferedTokenStart := 0, tokens := [], errors := [] }

/-- `create_current_token_span`: span from `buffered_token_start` whose
length is the buffered slice's byte length, or 1 when the slice is empty. -/
def create_current_token_span (input : List Char) (start pos : Nat) :
    Option Span :=
  (byteSlice input start pos).map fun buffered =>
    let l := byteLen buffered
    { start := start, length := if l = 0 then 1 else l }

/-- `consume_buffered_token` from `lexer.rs`.  `pos` is
`current_character_byte_index` at call time.  The `State::Start` arm is the
`unreachable!` assertion, modelled as `none` (panic). -/
def consume_buffered_token (input : List Char) (m : Machine) (pos : Nat) :
    Option Machine :=
  match m.state with
  | .inIdentifier =>
    (byteSlice input m.bufferedTokenStart pos).bind fun buffered =>
    let kind := if is_keyword buffered then TokenKind.keyword
                else TokenKind.identifier
    (create_current_token_span input m.bufferedTokenStart pos).map fun sp =>
      { m with tokens := m.tokens ++ [{ kind := kind, span := sp }] }
  | .inString ss =>
    -- the byte index is advanced so that the closing quote is included
    let pos := pos + 1
    let kind := TokenKind.string (stringKindOf ss)
    (create_current_token_span input m.bufferedTokenStart pos).map fun sp =>
      { m with tokens := m.tokens ++ [{ kind := kind, span := sp }] }
  | .inNumber =>
    (create_current_token_span input m.bufferedTokenStart pos).map fun sp =>
      { m with tokens := m.tokens ++ [{ kind := .number, span := sp }] }
  | .inOperator =>
    (byteSlice input m.bufferedTokenStart pos).bind fun buffered =>
    match match_operator_slice_to_operator_kind buffered with
    | .invalid =>
      (create_current_token_span input m.bufferedTokenStart pos).bind
        fun errSpan =>
      let m1 : Machine := { m with
        errors := m.errors ++ [{ span := errSpan, kind := .invalidOperator }] }
      (byteSlice input m1.bufferedTokenStart pos).bind fun buffered1 =>
      (byteSlice buffered1 0 1).bind fun firstSlice =>
      let firstKind := match_operator_slice_to_operator_kind firstSlice
      let m2 : Machine := { m1 with tokens := m1.tokens ++
        [create_token (.operator firstKind) m1.bufferedTokenStart 1] }
      let m3 : Machine := { m2 with bufferedTokenStart := m2.bufferedTokenStart + 1 }
      (byteSlice input m3.bufferedTokenStart pos).bind fun buffered2 =>
      (byteSlice buffered2 0 1).bind fun secondSlice =>
      let secondKind := match_operator_slice_to_operator_kind secondSlice
      (create_current_token_span input m3.bufferedTokenStart pos).map fun sp =>
        { m3 with tokens := m3.tokens ++
          [{ kind := .operator secondKind, span := sp }] }
    | k =>
      (create_current_token_span input m.bufferedTokenStart pos).map fun sp =>
        { m with tokens := m.tokens ++ [{ kind := .operator k, span := sp }] }
  | .start => none

/-- `handle_start`.  The returned `Bool` is whether the handler advanced the
cursor (`advance_cursor`). -/
def handle_start (input : List Char) (m : Machine) (pos : Nat) (c : Char) :
    Option (Machine × Bool) :=
  let m := { m with bufferedTokenStart := pos }
  if is_digit c then some ({ m with state := .inNumber }, false)
  else if is_letter c then some ({ m with state := .inIdentifier }, false)
  else if is_single_quote c then
    some ({ m with state := .inString .inSingleQuote }, true)
  else if is_double_quote c then
    some ({ m with state := .inString .inDoubleQuote }, true)
  else if is_operator c then some ({ m with state := .inOperator }, false)
  else if is_semicolon c then
    some ({ m with tokens :=
      m.tokens ++ [create_token .semicolon m.bufferedTokenStart 1] }, true)
  else if is_whitespace c then
    some ({ m with tokens :=
      m.tokens ++ [create_token .whitespace m.bufferedTokenStart 1] }, true)
  else
    let m1 := { m with tokens :=
      m.tokens ++ [create_token .invalid m.bufferedTokenStart 1] }
    (create_current_token_span input m1.bufferedTokenStart pos).map fun sp =>
      ({ m1 with errors :=
        m1.errors ++ [{ span := sp, kind := .invalidToken }] }, true)

/-- `handle_in_number`. -/
def handle_in_number (input : List Char) (m : Machine) (pos : Nat)
    (c : Char) : Option (Machine × Bool) :=
  if is_digit c then some (m, true)
  else (consume_buffered_token input m pos).map fun m' =>
    ({ m' with state := .start }, false)

/-- `handle_in_operator`.  The buffered-slice length test uses the byte
length of the slice, as Rust `str::len` does. -/
def handle_in_operator (input : List Char) (m : Machine) (pos : Nat)
    (c : Char) : Option (Machine × Bool) :=
  if is_operator c then
    (byteSlice input m.bufferedTokenStart pos).bind fun buffered =>
    if byteLen buffered < 2 then some (m, true)
    else (consume_buffered_token input m pos).map fun m' =>
      ({ m' with state := .start }, false)
  else (consume_buffered_token input m pos).map fun m' =>
    ({ m' with state := .start }, false)

/-- `handle_in_string`; the `StringState` payload is taken from the current
state by the dispatcher. -/
def handle_in_string (input : List Char) (m : Machine) (pos : Nat) (c : Char)
    (ss : StringState) : Option (Machine × Bool) :=
  let isClosing := stringClosePred ss c
  if !isClosing then some (m, true)
  else (consume_buffered_token input m pos).map fun m' =>
    ({ m' with state := .start }, true)

/-- `handle_in_identifier`. -/
def handle_in_identifier (input : List Char) (m : Machine) (pos : Nat)
    (c : Char) : Option (Machine × Bool) :=
  if is_in_identifier c then some (m, true)
  else (consume_buffered_token input m pos).map fun m' =>
    ({ m' with state := .start }, false)

/-- The state dispatch of the `lex` loop body. -/
def handle_character (input : List Char) (m : Machine) (pos : Nat)
    (c : Char) : Option (Machine × Bool) :=
  match m.state with
  | .start => handle_start input m pos c
  | .inIdentifier => handle_in_identifier input m pos c
  | .inString ss => handle_in_string input m pos c ss
  | .inNumber => handle_in_number input m pos c
  | .inOperator => handle_in_operator input m pos c

/-- One iteration group of the `lex` loop: the handlers are re-applied to
the same character (`delta = 0` in the Rust loop) until one advances the
cursor.  At most two non-advancing dispatches can occur in a row
(`Start → InX` after a token was finalized), so three applications always
suffice; a third non-advancing dispatch is unreachable and modelled as
`none`. -/
def processOne (input : List Char) (m : Machine) (pos : Nat) (c : Char) :
    Option Machine :=
  match handle_character input m pos c with
  | none => none
  | some (m1, true) => some m1
  | some (m1, false) =>
    match handle_character input m1 pos c with
    | none => none
    | some (m2, true) => some m2
    | some (m2, false) =>
      match handle_character input m2 pos c with
      | none => none
      | some (m3, true) => some m3
      | some (_, false) => none

/-- The `while current_group.is_some()` loop of `Lexer::lex`: `pos` is the
byte index of the head of `cs` within `input`. -/
def lexLoop (input : List Char) : Machine → Nat → List Char → Option Machine
  | m, _, [] => some m
  | m, pos, c :: rest =>
    match processOne input m pos c with
    | none => none
    | some m' => lexLoop input m' (pos + c.utf8Size) rest

/-- `Lexer::lex`: run the loop over the whole input, then, if the state
machine ended in a non-start state, set the byte index to `input.len()` and
consume the last buffered token.  Returns the token list and the error
handler's error list; `none` models a panic. -/
def lex (input : List Char) : Option (List Token × List LexerError) :=
  match lexLoop input initMachine 0 input with
  | none => none
  | some m =>
    if m.state = State.start then some (m.tokens, m.errors)
    else
      match consume_buffered_token input m (byteLen input) with
      | none => none
      | some m' => some (m'.tokens, m'.errors)

/-- Convenience wrapper taking a Lean string literal. -/
def lexStr (s : String) : Option (List Token × List LexerError) :=
  lex s.data

/-! ## Byte-length and slicing lemmas -/

theorem byteLen_append (a b : List Char) :
    byteLen (a ++ b) = byteLen a + byteLen b := by
  induction a with
  | nil => simp [byteLen]
  | cons x a ih => simp [byteLen, ih]; omega

theorem byteLen_pos {l : List Char} (h : l ≠ []) : 0 < byteLen l := by
  cases l with
  | nil => exact absurd rfl h
  | cons c cs =>
    have := Char.utf8Size_pos c
    simp [byteLen]; omega

theorem dropToByte_append (a r : List Char) :
    dropToByte (a ++ r) (byteLen a) = some r := by
  induction a with
  | nil => simp [dropToByte, byteLen]
  | cons x a ih =>
    have hx := Char.utf8Size_pos x
    have hn : byteLen (x :: a) = (x.utf8Size + byteLen a - 1) + 1 := by
      simp [byteLen]; omega
    rw [List.cons_append, hn, dropToByte]
    have h1 : x.utf8Size ≤ (x.utf8Size + byteLen a - 1) + 1 := by omega
    rw [if_pos h1]
    have h2 : (x.utf8Size + byteLen a - 1) + 1 - x.utf8Size = byteLen a := by
      omega
    rw [h2, ih]

theorem takeToByte_append (b r : List Char) :
    takeToByte (b ++ r) (byteLen b) = some b := by
  induction b with
  | nil => simp [takeToByte, byteLen]
  | cons x b ih =>
    have hx := Char.utf8Size_pos x
    have hn : byteLen (x :: b) = (x.utf8Size + byteLen b - 1) + 1 := by
      simp [byteLen]; omega
    rw [List.cons_append, hn, takeToByte]
    have h1 : x.utf8Size ≤ (x.utf8Size + byteLen b - 1) + 1 := by omega
    rw [if_pos h1]
    have h2 : (x.utf8Size + byteLen b - 1) + 1 - x.utf8Size = byteLen b := by
      omega
    rw [h2, ih]
    rfl

/-- Slicing out the middle block of a three-way decomposition succeeds and
returns exactly that block. -/
theorem byteSlice_append (a b c : List Char) :
    byteSlice (a ++ (b ++ c)) (byteLen a) (byteLen a + byteLen b) = some b := by
  rw [byteSlice, if_pos (Nat.le_add_right _ _)]
  rw [dropToByte_append]
  have h : byteLen a + byteLen b - byteLen a = byteLen b := by omega
  simp only [Option.some_bind, h]
  exact takeToByte_append b c

theorem byteSlice_all (l : List Char) : byteSlice l 0 (byteLen l) = some l := by
  have := byteSlice_append [] l []
  simpa [byteLen] using this

theorem byteSlice_empty (a r : List Char) :
    byteSlice (a ++ r) (byteLen a) (byteLen a) = some [] := by
  have := byteSlice_append a [] r
  simpa [byteLen] using this

theorem dropToByte_decomp {l r : List Char} {n : Nat}
    (h : dropToByte l n = some r) : ∃ a, l = a ++ r ∧ byteLen a = n := by
  induction l generalizing n with
  | nil =>
    cases n with
    | zero =>
      simp only [dropToByte, Option.some.injEq] at h
      subst h
      exact ⟨[], rfl, rfl⟩
    | succ k =>
      simp only [dropToByte] at h
      exact Option.noConfusion h
  | cons c cs ih =>
    cases n with
    | zero =>
      simp only [dropToByte, Option.some.injEq] at h
      subst h
      exact ⟨[], rfl, rfl⟩
    | succ k =>
      rw [dropToByte] at h
      by_cases hc : c.utf8Size ≤ k + 1
      · rw [if_pos hc] at h
        obtain ⟨a, ha, hlen⟩ := ih h
        refine ⟨c :: a, by simp [ha], ?_⟩
        simp [byteLen, hlen]
        omega
      · rw [if_neg hc] at h
        exact absurd h (by simp)

theorem takeToByte_decomp {l r : List Char} {n : Nat}
    (h : takeToByte l n = some r) : ∃ t, l = r ++ t ∧ byteLen r = n := by
  induction l generalizing n r with
  | nil =>
    cases n with
    | zero =>
      simp only [takeToByte, Option.some.injEq] at h
      subst h
      exact ⟨[], rfl, rfl⟩
    | succ k =>
      simp only [takeToByte] at h
      exact Option.noConfusion h
  | cons c cs ih =>
    cases n with
    | zero =>
      simp only [takeToByte, Option.some.injEq] at h
      subst h
      exact ⟨c :: cs, by simp, rfl⟩
    | succ k =>
      rw [takeToByte] at h
      by_cases hc : c.utf8Size ≤ k + 1
      · rw [if_pos hc] at h
        cases hr : takeToByte cs (k + 1 - c.utf8Size) with
        | none => rw [hr] at h; exact absurd h (by simp)
        | some r' =>
          rw [hr] at h
          simp at h
          obtain ⟨t, ht, hlen⟩ := ih hr
          refine ⟨t, by simp [← h, ht], ?_⟩
          simp [← h, byteLen, hlen]
          omega
      · rw [if_neg hc] at h
        exact absurd h (by simp)

/-- A successful byte slice splits the list into prefix, slice, suffix with
matching byte offsets. -/
theorem byteSlice_decomp {l r : List Char} {s e : Nat}
    (h : byteSlice l s e = some r) :
    ∃ a t, l = a ++ r ++ t ∧ byteLen a = s ∧ e = s + byteLen r := by
  rw [byteSlice] at h
  by_cases hse : s ≤ e
  · rw [if_pos hse] at h
    cases hd : dropToByte l s with
    | none => rw [hd] at h; exact absurd h (by simp)
    | some l' =>
      rw [hd] at h
      simp only [Option.some_bind] at h
      obtain ⟨a, ha, hs⟩ := dropToByte_decomp hd
      obtain ⟨t, ht, hr⟩ := takeToByte_decomp h
      exact ⟨a, t, by simp [ha, ht], hs, by omega⟩
  · rw [if_neg hse] at h
    exact absurd h (by simp)

theorem takeToByte_none_of_lt {l : List Char} {n : Nat}
    (h : byteLen l < n) : takeToByte l n = none := by
  induction l generalizing n with
  | nil =>
    cases n with
    | zero => simp [byteLen] at h
    | succ k => simp [takeToByte]
  | cons c cs ih =>
    cases n with
    | zero => omega
    | succ k =>
      rw [takeToByte]
      by_cases hc : c.utf8Size ≤ k + 1
      · rw [if_pos hc]
        have : byteLen cs < k + 1 - c.utf8Size := by
          simp [byteLen] at h; omega
        rw [ih this]
        rfl
      · rw [if_neg hc]

/-- Slicing past the end of the input fails (the Rust out-of-bounds panic
raised by the end-of-input flush of an unterminated string). -/
theorem byteSlice_none_of_lt (l : List Char) {s e : Nat} (hs : s ≤ e)
    (h : byteLen l < e) : byteSlice l s e = none := by
  rw [byteSlice, if_pos hs]
  cases hd : dropToByte l s with
  | none => rfl
  | some l' =>
    obtain ⟨a, ha, hsa⟩ := dropToByte_decomp hd
    have : byteLen l' < e - s := by
      rw [ha, byteLen_append] at h
      omega
    simp only [Option.some_bind]
    exact takeToByte_none_of_lt this

/-! ## Character classification facts -/

theorem is_operator_cases {c : Char} (h : is_operator c = true) :
    c = '+' ∨ c = '-' ∨ c = '*' ∨ c = '/' ∨ c = '=' ∨ c = '!' ∨ c = '<' ∨
    c = '>' ∨ c = '%' := by
  simp [is_operator] at h
  tauto

theorem operator_utf8Size {c : Char} (h : is_operator c = true) :
    c.utf8Size = 1 := by
  rcases is_operator_cases h with rfl|rfl|rfl|rfl|rfl|rfl|rfl|rfl|rfl <;> rfl

theorem operator_single_ne_invalid {c : Char} (h : is_operator c = true) :
    match_operator_slice_to_operator_kind [c] ≠ .invalid := by
  rcases is_operator_cases h with rfl|rfl|rfl|rfl|rfl|rfl|rfl|rfl|rfl <;> decide

theorem semicolon_eq {c : Char} (h : is_semicolon c = true) : c = ';' := by
  simpa [is_semicolon] using h

theorem single_quote_eq {c : Char} (h : is_single_quote c = true) :
    c = '\'' := by
  simpa [is_single_quote] using h

theorem double_quote_eq {c : Char} (h : is_double_quote c = true) :
    c = '"' := by
  simpa [is_double_quote] using h

theorem letter_in_identifier {c : Char} (h : is_letter c = true) :
    is_in_identifier c = true := by
  simp only [is_letter] at h
  simp [is_in_identifier, Char.isAlphanum, h]

/-! ## Span tiling

`Tiles a ts b` says the spans of `ts` exactly cover the byte range `[a, b)`,
consecutively, each with positive length: no gaps, no overlaps, strictly
ascending starts. -/

inductive Tiles : Nat → List Token → Nat → Prop
  | nil (a : Nat) : Tiles a [] a
  | cons {a b : Nat} (t : Token) {ts : List Token} :
      t.span.start = a → 1 ≤ t.span.length →
      Tiles (a + t.span.length) ts b → Tiles a (t :: ts) b

theorem Tiles.snoc {a b : Nat} {ts : List Token} (h : Tiles a ts b)
    {t : Token} (hl : 1 ≤ t.span.length) :
    t.span.start = b → Tiles a (ts ++ [t]) (b + t.span.length) := by
  induction h with
  | nil a => exact fun hs => .cons t hs hl (.nil _)
  | cons t' h1 h2 _ ih => exact fun hs => .cons t' h1 h2 (ih hs)

/-- The token list is strictly ordered by ascending span start. -/
def StrictAsc : List Token → Prop
  | [] => True
  | [_] => True
  | a :: b :: r => a.span.start < b.span.start ∧ StrictAsc (b :: r)

theorem Tiles.strictAsc {a b : Nat} {ts : List Token} (h : Tiles a ts b) :
    StrictAsc ts := by
  induction h with
  | nil => trivial
  | cons t h1 h2 h3 ih =>
    cases h3 with
    | nil => trivial
    | cons t2 g1 g2 g3 =>
      simp only [StrictAsc]
      refine ⟨?_, ih⟩
      rw [h1, g1]
      omega

/-! ## Gap-free inputs

A span gap appears exactly when a character that the scanner handles in the
`Start` state via the one-byte `Whitespace`/`Invalid` paths occupies more
than one byte.  `noFat mode cs` walks the remaining input the way the
scanner classifies it (`mode` records the closing quote while inside a
string literal, where every character is consumed verbatim) and requires
those characters to be single-byte. -/

def noFat : Option Char → List Char → Bool
  | _, [] => true
  | some q, c :: cs => if c = q then noFat none cs else noFat (some q) cs
  | none, c :: cs =>
    if is_digit c then noFat none cs
    else if is_letter c then noFat none cs
    else if is_single_quote c then noFat (some '\'') cs
    else if is_double_quote c then noFat (some '"') cs
    else if is_operator c then noFat none cs
    else if is_semicolon c then noFat none cs
    else (c.utf8Size == 1) && noFat none cs

/-- The `noFat` scanning mode corresponding to a machine state. -/
def modeOf : State → Option Char
  | .inString .inSingleQuote => some '\''
  | .inString .inDoubleQuote => some '"'
  | _ => none

/-! ## Exact-result lemmas for the state handlers -/

theorem handle_start_digit {input : List Char} {m : Machine} {pos : Nat}
    {c : Char} (hst : m.state = State.start) (h : is_digit c = true) :
    handle_character input m pos c =
      some ({ m with bufferedTokenStart := pos, state := .inNumber }, false) := by
  simp [handle_character, hst, handle_start, h]

theorem handle_start_letter {input : List Char} {m : Machine} {pos : Nat}
    {c : Char} (hst : m.state = State.start) (hd : is_digit c = false)
    (h : is_letter c = true) :
    handle_character input m pos c =
      some ({ m with bufferedTokenStart := pos, state := .inIdentifier },
        false) := by
  simp [handle_character, hst, handle_start, hd, h]

theorem handle_start_squote {input : List Char} {m : Machine} {pos : Nat}
    {c : Char} (hst : m.state = State.start) (hd : is_digit c = false)
    (hl : is_letter c = false) (h : is_single_quote c = true) :
    handle_character input m pos c =
      some ({ m with
        bufferedTokenStart := pos,
        state := .inString .inSingleQuote }, true) := by
  simp [handle_character, hst, handle_start, hd, hl, h]

theorem handle_start_dquote {input : List Char} {m : Machine} {pos : Nat}
    {c : Char} (hst : m.state = State.start) (hd : is_digit c = false)
    (hl : is_letter c = false) (hsq : is_single_quote c = false)
    (h : is_double_quote c = true) :
    handle_character input m pos c =
      some ({ m with
        bufferedTokenStart := pos,
        state := .inString .inDoubleQuote }, true) := by
  simp [handle_character, hst, handle_start, hd, hl, hsq, h]

theorem handle_start_operator {input : List Char} {m : Machine} {pos : Nat}
    {c : Char} (hst : m.state = State.start) (hd : is_digit c = false)
    (hl : is_letter c = false) (hsq : is_single_quote c = false)
    (hdq : is_double_quote c = false) (h : is_operator c = true) :
    handle_character input m pos c =
      some ({ m with bufferedTokenStart := pos, state := .inOperator },
        false) := by
  simp [handle_character, hst, handle_start, hd, hl, hsq, hdq, h]

theorem handle_start_semicolon {input : List Char} {m : Machine} {pos : Nat}
    {c : Char} (hst : m.state = State.start) (hd : is_digit c = false)
    (hl : is_letter c = false) (hsq : is_single_quote c = false)
    (hdq : is_double_quote c = false) (hop : is_operator c = false)
    (h : is_semicolon c = true) :
    handle_character input m pos c =
      some ({ m with
        bufferedTokenStart := pos,
        tokens := m.tokens ++ [create_token .semicolon pos 1] }, true) := by
  simp [handle_character, hst, handle_start, hd, hl, hsq, hdq, hop, h]

theorem handle_start_whitespace {input : List Char} {m : Machine} {pos : Nat}
    {c : Char} (hst : m.state = State.start) (hd : is_digit c = false)
    (hl : is_letter c = false) (hsq : is_single_quote c = false)
    (hdq : is_double_quote c = false) (hop : is_operator c = false)
    (hsc : is_semicolon c = false) (h : is_whitespace c = true) :
    handle_character input m pos c =
      some ({ m with
        bufferedTokenStart := pos,
        tokens := m.tokens ++ [create_token .whitespace pos 1] }, true) := by
  simp [handle_character, hst, handle_start, hd, hl, hsq, hdq, hop, hsc, h]

theorem handle_start_invalid {input : List Char} {m : Machine} {pos : Nat}
    {c : Char} (hst : m.state = State.start) (hd : is_digit c = false)
    (hl : is_letter c = false) (hsq : is_single_quote c = false)
    (hdq : is_double_quote c = false) (hop : is_operator c = false)
    (hsc : is_semicolon c = false) (hws : is_whitespace c = false)
    (hsl : byteSlice input pos pos = some []) :
    handle_character input m pos c =
      some ({ m with
        bufferedTokenStart := pos,
        tokens := m.tokens ++ [create_token .invalid pos 1],
        errors := m.errors ++
          [{ span := { start := pos, length := 1 },
             kind := .invalidToken }] }, true) := by
  simp [handle_character, hst, handle_start, hd, hl, hsq, hdq, hop, hsc, hws,
    create_current_token_span, hsl, byteLen]

theorem handle_number_cont {input : List Char} {m : Machine} {pos : Nat}
    {c : Char} (hst : m.state = State.inNumber) (h : is_digit c = true) :
    handle_character input m pos c = some (m, true) := by
  simp [handle_character, hst, handle_in_number, h]

theorem handle_number_bound {input : List Char} {m mC : Machine} {pos : Nat}
    {c : Char} (hst : m.state = State.inNumber) (h : is_digit c = false)
    (hcons : consume_buffered_token input m pos = some mC) :
    handle_character input m pos c = some ({ mC with state := .start },
      false) := by
  simp [handle_character, hst, handle_in_number, h, hcons]

theorem handle_identifier_cont {input : List Char} {m : Machine} {pos : Nat}
    {c : Char} (hst : m.state = State.inIdentifier)
    (h : is_in_identifier c = true) :
    handle_character input m pos c = some (m, true) := by
  simp [handle_character, hst, handle_in_identifier, h]

theorem handle_identifier_bound {input : List Char} {m mC : Machine}
    {pos : Nat} {c : Char} (hst : m.state = State.inIdentifier)
    (h : is_in_identifier c = false)
    (hcons : consume_buffered_token input m pos = some mC) :
    handle_character input m pos c = some ({ mC with state := .start },
      false) := by
  simp [handle_character, hst, handle_in_identifier, h, hcons]

theorem handle_operator_cont {input : List Char} {m : Machine} {pos : Nat}
    {c : Char} {buf : List Char} (hst : m.state = State.inOperator)
    (h : is_operator c = true)
    (hsl : byteSlice input m.bufferedTokenStart pos = some buf)
    (hlen : byteLen buf < 2) :
    handle_character input m pos c = some (m, true) := by
  simp [handle_character, hst, handle_in_operator, h, hsl, hlen]

theorem handle_operator_full {input : List Char} {m mC : Machine} {pos : Nat}
    {c : Char} {buf : List Char} (hst : m.state = State.inOperator)
    (h : is_operator c = true)
    (hsl : byteSlice input m.bufferedTokenStart pos = some buf)
    (hlen : ¬ byteLen buf < 2)
    (hcons : consume_buffered_token input m pos = some mC) :
    handle_character input m pos c = some ({ mC with state := .start },
      false) := by
  simp [handle_character, hst, handle_in_operator, h, hsl, hlen, hcons]

theorem handle_operator_nonop {input : List Char} {m mC : Machine}
    {pos : Nat} {c : Char} (hst : m.state = State.inOperator)
    (h : is_operator c = false)
    (hcons : consume_buffered_token input m pos = some mC) :
    handle_character input m pos c = some ({ mC with state := .start },
      false) := by
  simp [handle_character, hst, handle_in_operator, h, hcons]

theorem handle_string_cont {input : List Char} {m : Machine} {pos : Nat}
    {c : Char} {ss : StringState} (hst : m.state = State.inString ss)
    (h : stringClosePred ss c = false) :
    handle_character input m pos c = some (m, true) := by
  simp [handle_character, hst, handle_in_string, h]

theorem handle_string_close {input : List Char} {m mC : Machine} {pos : Nat}
    {c : Char} {ss : StringState} (hst : m.state = State.inString ss)
    (h : stringClosePred ss c = true)
    (hcons : consume_buffered_token input m pos = some mC) :
    handle_character input m pos c = some ({ mC with state := .start },
      true) := by
  simp [handle_character, hst, handle_in_string, h, hcons]

/-! ## Chain lemmas for `processOne` and `lexLoop` -/

theorem processOne_one {input : List Char} {m m1 : Machine} {pos : Nat}
    {c : Char} (h1 : handle_character input m pos c = some (m1, true)) :
    processOne input m pos c = some m1 := by
  simp [processOne, h1]

theorem processOne_two {input : List Char} {m m1 m2 : Machine} {pos : Nat}
    {c : Char} (h1 : handle_character input m pos c = some (m1, false))
    (h2 : handle_character input m1 pos c = some (m2, true)) :
    processOne input m pos c = some m2 := by
  simp [processOne, h1, h2]

theorem processOne_three {input : List Char} {m m1 m2 m3 : Machine}
    {pos : Nat} {c : Char}
    (h1 : handle_character input m pos c = some (m1, false))
    (h2 : handle_character input m1 pos c = some (m2, false))
    (h3 : handle_character input m2 pos c = some (m3, true)) :
    processOne input m pos c = some m3 := by
  simp [processOne, h1, h2, h3]

theorem lexLoop_cons {input : List Char} {m m1 : Machine} {pos : Nat}
    {c : Char} {rest : List Char}
    (h : processOne input m pos c = some m1) :
    lexLoop input m pos (c :: rest) =
      lexLoop input m1 (pos + c.utf8Size) rest := by
  simp [lexLoop, h]

/-! ## Exact-result lemmas for `consume_buffered_token` -/

theorem consume_number_spec {input : List Char} {m : Machine} {pos : Nat}
    {buf : List Char} (hst : m.state = State.inNumber)
    (hsl : byteSlice input m.bufferedTokenStart pos = some buf) :
    consume_buffered_token input m pos = some { m with tokens := m.tokens ++
      [{ kind := .number,
         span := { start := m.bufferedTokenStart,
                   length := if byteLen buf = 0 then 1 else byteLen buf } }] }
    := by
  simp [consume_buffered_token, hst, create_current_token_span, hsl]

theorem consume_identifier_spec {input : List Char} {m : Machine} {pos : Nat}
    {buf : List Char} (hst : m.state = State.inIdentifier)
    (hsl : byteSlice input m.bufferedTokenStart pos = some buf) :
    consume_buffered_token input m pos = some { m with tokens := m.tokens ++
      [{ kind := if is_keyword buf then .keyword else .identifier,
         span := { start := m.bufferedTokenStart,
                   length := if byteLen buf = 0 then 1 else byteLen buf } }] }
    := by
  simp [consume_buffered_token, hst, create_current_token_span, hsl]

theorem consume_string_spec {input : List Char} {m : Machine} {pos : Nat}
    {ss : StringState} {buf : List Char} (hst : m.state = State.inString ss)
    (hsl : byteSlice input m.bufferedTokenStart (pos + 1) = some buf) :
    consume_buffered_token input m pos = some { m with tokens := m.tokens ++
      [{ kind := .string (stringKindOf ss),
         span := { start := m.bufferedTokenStart,
                   length := if byteLen buf = 0 then 1 else byteLen buf } }] }
    := by
  simp [consume_buffered_token, hst, create_current_token_span, hsl]

theorem consume_string_none {input : List Char} {m : Machine} {pos : Nat}
    {ss : StringState} (hst : m.state = State.inString ss)
    (hsl : byteSlice input m.bufferedTokenStart (pos + 1) = none) :
    consume_buffered_token input m pos = none := by
  simp [consume_buffered_token, hst, create_current_token_span, hsl]

theorem consume_operator_valid_spec {input : List Char} {m : Machine}
    {pos : Nat} {buf : List Char} {k : OperatorKind}
    (hst : m.state = State.inOperator)
    (hsl : byteSlice input m.bufferedTokenStart pos = some buf)
    (hk : match_operator_slice_to_operator_kind buf = k)
    (hkni : k ≠ .invalid) :
    consume_buffered_token input m pos = some { m with tokens := m.tokens ++
      [{ kind := .operator k,
         span := { start := m.bufferedTokenStart,
                   length := if byteLen buf = 0 then 1 else byteLen buf } }] }
    := by
  simp only [consume_buffered_token, hst, hsl, Option.some_bind, hk]
  cases k <;> simp_all [create_current_token_span]

/-- The invalid-operator split of `consume_buffered_token`: one
`InvalidOperator` error spanning both characters, then the two characters
emitted as 1-length operator tokens resolved independently. -/
theorem consume_operator_invalid_spec {input : List Char} {m : Machine}
    {pos : Nat} {done rest : List Char} {c1 c2 : Char}
    (hst : m.state = State.inOperator)
    (hin : input = done ++ ([c1, c2] ++ rest))
    (hs : m.bufferedTokenStart = byteLen done)
    (hpos : pos = byteLen done + byteLen [c1, c2])
    (h1 : is_operator c1 = true) (h2 : is_operator c2 = true)
    (hk : match_operator_slice_to_operator_kind [c1, c2] = .invalid) :
    consume_buffered_token input m pos = some { m with
      bufferedTokenStart := m.bufferedTokenStart + 1,
      tokens := m.tokens ++
        [create_token (.operator (match_operator_slice_to_operator_kind [c1]))
           m.bufferedTokenStart 1,
         create_token (.operator (match_operator_slice_to_operator_kind [c2]))
           (m.bufferedTokenStart + 1) 1],
      errors := m.errors ++
        [{ span := { start := m.bufferedTokenStart, length := 2 },
           kind := .invalidOperator }] } := by
  have s1 : c1.utf8Size = 1 := operator_utf8Size h1
  have s2 : c2.utf8Size = 1 := operator_utf8Size h2
  have hsl : byteSlice input m.bufferedTokenStart pos = some [c1, c2] := by
    rw [hin, hs, hpos]
    exact byteSlice_append done [c1, c2] rest
  have hsl1 : byteSlice [c1, c2] 0 1 = some [c1] := by
    simp [byteSlice, dropToByte, takeToByte, s1]
  have hin2 : input = (done ++ [c1]) ++ ([c2] ++ rest) := by
    rw [hin]; simp
  have hlen2 : byteLen (done ++ [c1]) = m.bufferedTokenStart + 1 := by
    rw [byteLen_append, hs]
    simp [byteLen, s1]
  have hpos2 : pos = byteLen (done ++ [c1]) + byteLen [c2] := by
    rw [hlen2, hs, hpos]
    simp [byteLen, s1, s2]
  have hsl2 : byteSlice input (m.bufferedTokenStart + 1) pos = some [c2] := by
    rw [hin2, hpos2, ← hlen2]
    exact byteSlice_append (done ++ [c1]) [c2] rest
  have hsl2b : byteSlice [c2] 0 1 = some [c2] := by
    simp [byteSlice, dropToByte, takeToByte, s2]
  simp only [consume_buffered_token, hst, hsl, Option.some_bind, hk,
    create_current_token_span, hsl2, hsl1, hsl2b, Option.map_some,
    Option.some_bind, create_token]
  simp [byteLen, s1, s2]

/-! ## More classification facts -/

theorem operator_not_others {c : Char} (h : is_operator c = true) :
    is_digit c = false ∧ is_letter c = false ∧ is_single_quote c = false ∧
    is_double_quote c = false := by
  rcases is_operator_cases h with rfl|rfl|rfl|rfl|rfl|rfl|rfl|rfl|rfl <;>
    exact ⟨rfl, rfl, rfl, rfl⟩

theorem byteLen_singleton (c : Char) : byteLen [c] = c.utf8Size := by
  simp [byteLen]

/-- An operator-symbol buffer of byte length at most 2 whose slice does not
resolve must consist of exactly two operator symbols. -/
theorem opbuf_shape {buf : List Char} (hne : buf ≠ [])
    (hle : byteLen buf ≤ 2) (hops : ∀ c ∈ buf, is_operator c = true)
    (hk : match_operator_slice_to_operator_kind buf = .invalid) :
    ∃ c1 c2, buf = [c1, c2] := by
  match buf with
  | [] => exact absurd rfl hne
  | [c1] =>
    exact absurd hk (operator_single_ne_invalid (hops c1 (by simp)))
  | [c1, c2] => exact ⟨c1, c2, rfl⟩
  | c1 :: c2 :: c3 :: r =>
    have p1 := Char.utf8Size_pos c1
    have p2 := Char.utf8Size_pos c2
    have p3 := Char.utf8Size_pos c3
    simp [byteLen] at hle
    omega

/-! ## The coverage invariant -/

/-- State-dependent shape of the buffered slice at the top of a loop
iteration. -/
def StateBuf : State → List Char → Prop
  | .start, buf => buf = []
  | .inNumber, buf => buf ≠ []
  | .inIdentifier, buf => buf ≠ []
  | .inOperator, buf =>
      buf ≠ [] ∧ byteLen buf ≤ 2 ∧ ∀ c ∈ buf, is_operator c = true
  | .inString _, _ => True

/-- Loop invariant of `lexLoop`: the input splits into the finished prefix
`done`, the buffered slice `buf` and the remaining characters `cs`; the byte
index and the buffered-token start agree with this split; and the emitted
tokens tile `[0, byteLen done)` exactly. -/
def MInv (input : List Char) (m : Machine) (pos : Nat) (cs : List Char) :
    Prop :=
  ∃ done buf,
    input = done ++ (buf ++ cs) ∧
    pos = byteLen done + byteLen buf ∧
    StateBuf m.state buf ∧
    (m.state = State.start ∨ m.bufferedTokenStart = byteLen done) ∧
    Tiles 0 m.tokens (byteLen done)

/-- Dispatching a character from the `Start` state: the handler chain
advances after at most two handler applications and preserves the
invariant. -/
theorem start_dispatch {input done cs : List Char} {c : Char} {m : Machine}
    (hst : m.state = State.start)
    (hin : input = done ++ (c :: cs))
    (htl : Tiles 0 m.tokens (byteLen done))
    (hnf : noFat none (c :: cs) = true) :
    ∃ m',
      (handle_character input m (byteLen done) c = some (m', true) ∨
       (∃ mm, handle_character input m (byteLen done) c = some (mm, false) ∧
              handle_character input mm (byteLen done) c = some (m', true))) ∧
      MInv input m' (byteLen done + c.utf8Size) cs ∧
      noFat (modeOf m'.state) cs = true := by
  by_cases hd : is_digit c = true
  · -- digit → InNumber, re-examined and consumed by handle_in_number
    refine ⟨{ m with bufferedTokenStart := byteLen done, state := .inNumber },
      Or.inr ⟨_, handle_start_digit hst hd, handle_number_cont rfl hd⟩,
      ⟨done, [c], ?_, ?_, ?_, Or.inr rfl, htl⟩, ?_⟩
    · simpa using hin
    · simp [byteLen]
    · simp [StateBuf]
    · simp only [noFat, hd, if_pos] at hnf
      simpa [modeOf] using hnf
  · rw [Bool.not_eq_true] at hd
    by_cases hl : is_letter c = true
    · -- letter → InIdentifier
      refine ⟨{ m with
          bufferedTokenStart := byteLen done,
          state := .inIdentifier },
        Or.inr ⟨_, handle_start_letter hst hd hl,
          handle_identifier_cont rfl (letter_in_identifier hl)⟩,
        ⟨done, [c], ?_, ?_, ?_, Or.inr rfl, htl⟩, ?_⟩
      · simpa using hin
      · simp [byteLen]
      · simp [StateBuf]
      · simp only [noFat, hd, hl, if_pos, Bool.false_eq_true, if_false] at hnf
        simpa [modeOf] using hnf
    · rw [Bool.not_eq_true] at hl
      by_cases hsq : is_single_quote c = true
      · -- single quote → InString, delimiter consumed immediately
        refine ⟨{ m with
            bufferedTokenStart := byteLen done,
            state := .inString .inSingleQuote },
          Or.inl (handle_start_squote hst hd hl hsq),
          ⟨done, [c], ?_, ?_, ?_, Or.inr rfl, htl⟩, ?_⟩
        · simpa using hin
        · simp [byteLen]
        · simp [StateBuf]
        · have hc : c = '\'' := single_quote_eq hsq
          subst hc
          simp only [noFat, hd, hl, hsq, Bool.false_eq_true, if_false,
            if_pos] at hnf
          simpa [modeOf] using hnf
      · rw [Bool.not_eq_true] at hsq
        by_cases hdq : is_double_quote c = true
        · -- double quote → InString
          refine ⟨{ m with
              bufferedTokenStart := byteLen done,
              state := .inString .inDoubleQuote },
            Or.inl (handle_start_dquote hst hd hl hsq hdq),
            ⟨done, [c], ?_, ?_, ?_, Or.inr rfl, htl⟩, ?_⟩
          · simpa using hin
          · simp [byteLen]
          · simp [StateBuf]
          · have hc : c = '"' := double_quote_eq hdq
            subst hc
            simp only [noFat, hd, hl, hsq, hdq, Bool.false_eq_true, if_false,
              if_pos] at hnf
            simpa [modeOf] using hnf
        · rw [Bool.not_eq_true] at hdq
          by_cases hop : is_operator c = true
          · -- operator symbol → InOperator, re-examined with empty buffer
            have hsl : byteSlice input (byteLen done) (byteLen done) =
                some [] := by
              rw [hin]; exact byteSlice_empty done (c :: cs)
            refine ⟨{ m with
                bufferedTokenStart := byteLen done,
                state := .inOperator },
              Or.inr ⟨_, handle_start_operator hst hd hl hsq hdq hop,
                handle_operator_cont rfl hop hsl (by simp [byteLen])⟩,
              ⟨done, [c], ?_, ?_, ?_, Or.inr rfl, htl⟩, ?_⟩
            · simpa using hin
            · simp [byteLen]
            · refine ⟨by simp, ?_, by simpa using hop⟩
              rw [byteLen_singleton, operator_utf8Size hop]
              omega
            · simp only [noFat, hd, hl, hsq, hdq, hop, Bool.false_eq_true,
                if_false, if_pos] at hnf
              simpa [modeOf] using hnf
          · rw [Bool.not_eq_true] at hop
            by_cases hsc : is_semicolon c = true
            · -- semicolon: one-byte token emitted on the spot
              have hc : c = ';' := semicolon_eq hsc
              have hsz : c.utf8Size = 1 := by rw [hc]; rfl
              refine ⟨{ m with
                  bufferedTokenStart := byteLen done,
                  tokens := m.tokens ++
                    [create_token .semicolon (byteLen done) 1] },
                Or.inl (handle_start_semicolon hst hd hl hsq hdq hop hsc),
                ⟨done ++ [c], [], ?_, ?_, by simp [StateBuf, hst], Or.inl hst, ?_⟩, ?_⟩
              · simp [hin]
              · simp [byteLen_append, byteLen, hsz]
              · rw [byteLen_append, byteLen_singleton, hsz]
                exact htl.snoc (t := create_token .semicolon (byteLen done) 1)
                  (by simp [create_token]) (by simp [create_token])
              · simp only [noFat, hd, hl, hsq, hdq, hop, hsc,
                  Bool.false_eq_true, if_false, if_pos] at hnf
                simpa [modeOf, hst] using hnf
            · rw [Bool.not_eq_true] at hsc
              by_cases hws : is_whitespace c = true
              · -- whitespace: one-byte token; `noFat` forces a 1-byte char
                have hnf' : c.utf8Size = 1 ∧ noFat none cs = true := by
                  simp only [noFat, hd, hl, hsq, hdq, hop, hsc,
                    Bool.false_eq_true, if_false] at hnf
                  simpa using hnf
                refine ⟨{ m with
                    bufferedTokenStart := byteLen done,
                    tokens := m.tokens ++
                      [create_token .whitespace (byteLen done) 1] },
                  Or.inl (handle_start_whitespace hst hd hl hsq hdq hop hsc
                    hws),
                  ⟨done ++ [c], [], ?_, ?_, by simp [StateBuf, hst], Or.inl hst, ?_⟩, ?_⟩
                · simp [hin]
                · simp [byteLen_append, byteLen, hnf'.1]
                · rw [byteLen_append, byteLen_singleton, hnf'.1]
                  exact htl.snoc
                    (t := create_token .whitespace (byteLen done) 1)
                    (by simp [create_token]) (by simp [create_token])
                · simpa [modeOf, hst] using hnf'.2
              · rw [Bool.not_eq_true] at hws
                -- unrecognized: one-byte `Invalid` token plus an error
                have hnf' : c.utf8Size = 1 ∧ noFat none cs = true := by
                  simp only [noFat, hd, hl, hsq, hdq, hop, hsc,
                    Bool.false_eq_true, if_false] at hnf
                  simpa using hnf
                have hsl : byteSlice input (byteLen done) (byteLen done) =
                    some [] := by
                  rw [hin]; exact byteSlice_empty done (c :: cs)
                refine ⟨{ m with
                    bufferedTokenStart := byteLen done,
                    tokens := m.tokens ++
                      [create_token .invalid (byteLen done) 1],
                    errors := m.errors ++
                      [{ span := { start := byteLen done, length := 1 },
                         kind := .invalidToken }] },
                  Or.inl (handle_start_invalid hst hd hl hsq hdq hop hsc hws
                    hsl),
                  ⟨done ++ [c], [], ?_, ?_, by simp [StateBuf, hst], Or.inl hst, ?_⟩, ?_⟩
                · simp [hin]
                · simp [byteLen_append, byteLen, hnf'.1]
                · rw [byteLen_append, byteLen_singleton, hnf'.1]
                  exact htl.snoc
                    (t := create_token .invalid (byteLen done) 1)
                    (by simp [create_token]) (by simp [create_token])
                · simpa [modeOf, hst] using hnf'.2

/-- A character that continues a number/identifier/operator run is not a
quote, so a `noFat` step stays in non-string mode. -/
theorem noFat_none_step {c : Char} {cs : List Char}
    (hsq : is_single_quote c = false) (hdq : is_double_quote c = false)
    (h : noFat none (c :: cs) = true) : noFat none cs = true := by
  simp only [noFat, hsq, hdq, Bool.false_eq_true, if_false] at h
  split at h
  · exact h
  · split at h
    · exact h
    · split at h
      · exact h
      · split at h
        · exact h
        · simp only [Bool.and_eq_true] at h
          exact h.2

theorem digit_not_quote {c : Char} (h : is_digit c = true) :
    is_single_quote c = false ∧ is_double_quote c = false := by
  constructor
  · by_contra hq
    rw [Bool.not_eq_false] at hq
    rw [single_quote_eq hq] at h
    exact absurd h (by decide)
  · by_contra hq
    rw [Bool.not_eq_false] at hq
    rw [double_quote_eq hq] at h
    exact absurd h (by decide)

theorem in_identifier_not_quote {c : Char} (h : is_in_identifier c = true) :
    is_single_quote c = false ∧ is_double_quote c = false := by
  constructor
  · by_contra hq
    rw [Bool.not_eq_false] at hq
    rw [single_quote_eq hq] at h
    exact absurd h (by decide)
  · by_contra hq
    rw [Bool.not_eq_false] at hq
    rw [double_quote_eq hq] at h
    exact absurd h (by decide)

/-- After a boundary consume reset the machine to `Start`: the remaining
(at most two) handler applications advance and restore the invariant. -/
theorem boundary_dispatch {input done buf cs : List Char} {c : Char}
    {m mC : Machine} {pos : Nat}
    (hin : input = done ++ (buf ++ (c :: cs)))
    (hpos : pos = byteLen done + byteLen buf)
    (h1 : handle_character input m pos c =
      some ({ mC with state := .start }, false))
    (htl : Tiles 0 mC.tokens (byteLen done + byteLen buf))
    (hnf : noFat none (c :: cs) = true) :
    ∃ m₁, processOne input m pos c = some m₁ ∧
          MInv input m₁ (pos + c.utf8Size) cs ∧
          noFat (modeOf m₁.state) cs = true := by
  have hin' : input = (done ++ buf) ++ (c :: cs) := by rw [hin]; simp
  have hbl : byteLen (done ++ buf) = pos := by rw [byteLen_append, hpos]
  obtain ⟨m', hh, hMInv, hnf'⟩ :=
    start_dispatch (m := { mC with state := .start }) rfl hin'
      (by rw [hbl, hpos]; exact htl) hnf
  rw [hbl] at hMInv
  refine ⟨m', ?_, hMInv, hnf'⟩
  rcases hh with h2 | ⟨mm, h2, h3⟩
  · exact processOne_two h1 (by rw [hbl] at h2; exact h2)
  · exact processOne_three h1 (by rw [hbl] at h2; exact h2)
      (by rw [hbl] at h3; exact h3)

/-- Consuming a buffered operator run: either the slice resolves and one
token is emitted, or it is split into two resolved one-byte tokens. -/
theorem consume_operator_cases {input done buf rest : List Char} {m : Machine}
    {pos : Nat} (hm : m.state = State.inOperator)
    (hin : input = done ++ (buf ++ rest))
    (hs : m.bufferedTokenStart = byteLen done)
    (hpos : pos = byteLen done + byteLen buf)
    (hne : buf ≠ []) (hle : byteLen buf ≤ 2)
    (hops : ∀ c ∈ buf, is_operator c = true) :
    ∃ mC, consume_buffered_token input m pos = some mC ∧
      mC.state = m.state ∧ mC.errors.length ≥ m.errors.length ∧
      ((∃ k, k ≠ OperatorKind.invalid ∧
         mC.tokens = m.tokens ++
           [{ kind := .operator k,
              span := { start := byteLen done, length := byteLen buf } }]) ∨
       (∃ k1 k2, k1 ≠ OperatorKind.invalid ∧ k2 ≠ OperatorKind.invalid ∧
         byteLen buf = 2 ∧
         mC.tokens = m.tokens ++
           [{ kind := .operator k1,
              span := { start := byteLen done, length := 1 } },
            { kind := .operator k2,
              span := { start := byteLen done + 1, length := 1 } }])) := by
  have hsl : byteSlice input m.bufferedTokenStart pos = some buf := by
    rw [hin, hs, hpos]
    exact byteSlice_append done buf rest
  have hlen0 : ¬ byteLen buf = 0 := by
    have := byteLen_pos hne
    omega
  by_cases hkinv : match_operator_slice_to_operator_kind buf =
      OperatorKind.invalid
  · obtain ⟨c1, c2, hbuf⟩ := opbuf_shape hne hle hops hkinv
    subst hbuf
    have h1o : is_operator c1 = true := hops c1 (by simp)
    have h2o : is_operator c2 = true := hops c2 (by simp)
    have hcons := consume_operator_invalid_spec hm hin hs hpos h1o h2o hkinv
    refine ⟨_, hcons, rfl, by simp, Or.inr
      ⟨match_operator_slice_to_operator_kind [c1],
       match_operator_slice_to_operator_kind [c2],
       operator_single_ne_invalid h1o, operator_single_ne_invalid h2o,
       by simp [byteLen, operator_utf8Size h1o, operator_utf8Size h2o], ?_⟩⟩
    simp [create_token, hs]
  · have hcons := consume_operator_valid_spec hm hsl rfl hkinv
    rw [if_neg hlen0] at hcons
    refine ⟨_, hcons, rfl, by simp, Or.inl
      ⟨match_operator_slice_to_operator_kind buf, hkinv, ?_⟩⟩
    simp [hs]

/-- One full iteration of the scanning loop preserves the coverage
invariant and always advances over the current character. -/
theorem processOne_step {input : List Char} {m : Machine} {pos : Nat}
    {c : Char} {cs : List Char}
    (hInv : MInv input m pos (c :: cs))
    (hnf : noFat (modeOf m.state) (c :: cs) = true) :
    ∃ m₁, processOne input m pos c = some m₁ ∧
          MInv input m₁ (pos + c.utf8Size) cs ∧
          noFat (modeOf m₁.state) cs = true := by
  obtain ⟨done, buf, hin, hpos, hsb, hbs, htl⟩ := hInv
  cases hm : m.state with
  | start =>
    rw [hm] at hsb
    have hbuf : buf = [] := hsb
    subst hbuf
    have hpos' : pos = byteLen done := by simpa [byteLen] using hpos
    subst hpos'
    obtain ⟨m', hh, hMInv, hnf'⟩ :=
      start_dispatch hm (by simpa using hin) htl
        (by rw [hm] at hnf; simpa [modeOf] using hnf)
    refine ⟨m', ?_, hMInv, hnf'⟩
    rcases hh with h1 | ⟨mm, h1, h2⟩
    · exact processOne_one h1
    · exact processOne_two h1 h2
  | inNumber =>
    rw [hm] at hsb
    have hs : m.bufferedTokenStart = byteLen done := by
      rcases hbs with h | h
      · rw [hm] at h; exact State.noConfusion h
      · exact h
    rw [hm] at hnf
    simp only [modeOf] at hnf
    by_cases hd : is_digit c = true
    · refine ⟨m, processOne_one (handle_number_cont hm hd),
        ⟨done, buf ++ [c], ?_, ?_, ?_, Or.inr hs, htl⟩, ?_⟩
      · rw [hin, List.append_cons]
      · rw [hpos, byteLen_append, byteLen_singleton]
        omega
      · rw [hm]; simp [StateBuf, hsb]
      · rw [hm]
        obtain ⟨q1, q2⟩ := digit_not_quote hd
        simpa [modeOf] using noFat_none_step q1 q2 hnf
    · rw [Bool.not_eq_true] at hd
      have hsl : byteSlice input m.bufferedTokenStart pos = some buf := by
        rw [hin, hs, hpos]
        exact byteSlice_append done buf (c :: cs)
      have hlen0 : ¬ byteLen buf = 0 := by
        have := byteLen_pos hsb
        omega
      have hcons := consume_number_spec hm hsl
      rw [if_neg hlen0] at hcons
      refine boundary_dispatch hin hpos
        (handle_number_bound hm hd hcons) ?_ hnf
      exact htl.snoc (by show 1 ≤ byteLen buf; exact byteLen_pos hsb)
        (by show m.bufferedTokenStart = byteLen done; exact hs)
  | inIdentifier =>
    rw [hm] at hsb
    have hs : m.bufferedTokenStart = byteLen done := by
      rcases hbs with h | h
      · rw [hm] at h; exact State.noConfusion h
      · exact h
    rw [hm] at hnf
    simp only [modeOf] at hnf
    by_cases hd : is_in_identifier c = true
    · refine ⟨m, processOne_one (handle_identifier_cont hm hd),
        ⟨done, buf ++ [c], ?_, ?_, ?_, Or.inr hs, htl⟩, ?_⟩
      · rw [hin, List.append_cons]
      · rw [hpos, byteLen_append, byteLen_singleton]
        omega
      · rw [hm]; simp [StateBuf, hsb]
      · rw [hm]
        obtain ⟨q1, q2⟩ := in_identifier_not_quote hd
        simpa [modeOf] using noFat_none_step q1 q2 hnf
    · rw [Bool.not_eq_true] at hd
      have hsl : byteSlice input m.bufferedTokenStart pos = some buf := by
        rw [hin, hs, hpos]
        exact byteSlice_append done buf (c :: cs)
      have hlen0 : ¬ byteLen buf = 0 := by
        have := byteLen_pos hsb
        omega
      have hcons := consume_identifier_spec hm hsl
      rw [if_neg hlen0] at hcons
      refine boundary_dispatch hin hpos
        (handle_identifier_bound hm hd hcons) ?_ hnf
      exact htl.snoc (by show 1 ≤ byteLen buf; exact byteLen_pos hsb)
        (by show m.bufferedTokenStart = byteLen done; exact hs)
  | inOperator =>
    rw [hm] at hsb
    obtain ⟨hne, hle, hops⟩ := hsb
    have hs : m.bufferedTokenStart = byteLen done := by
      rcases hbs with h | h
      · rw [hm] at h; exact State.noConfusion h
      · exact h
    rw [hm] at hnf
    simp only [modeOf] at hnf
    have hsl : byteSlice input m.bufferedTokenStart pos = some buf := by
      rw [hin, hs, hpos]
      exact byteSlice_append done buf (c :: cs)
    by_cases hop : is_operator c = true
    · by_cases hfull : byteLen buf < 2
      · refine ⟨m, processOne_one (handle_operator_cont hm hop hsl hfull),
          ⟨done, buf ++ [c], ?_, ?_, ?_, Or.inr hs, htl⟩, ?_⟩
        · rw [hin, List.append_cons]
        · rw [hpos, byteLen_append, byteLen_singleton]
          omega
        · rw [hm]
          refine ⟨by simp, ?_, ?_⟩
          · rw [byteLen_append, byteLen_singleton, operator_utf8Size hop]
            omega
          · intro x hx
            rcases List.mem_append.mp hx with h | h
            · exact hops x h
            · simp at h; subst h; exact hop
        · rw [hm]
          obtain ⟨f1, f2, f3, f4⟩ := operator_not_others hop
          simpa [modeOf] using noFat_none_step f3 f4 hnf
      · obtain ⟨mC, hcons, hCst, _, hdisj⟩ :=
          consume_operator_cases hm hin hs hpos hne hle hops
        have h1 := handle_operator_full hm hop hsl hfull hcons
        refine boundary_dispatch hin hpos h1 ?_ hnf
        rcases hdisj with ⟨k, hk, htok⟩ | ⟨k1, k2, hk1, hk2, hbl2, htok⟩
        · rw [htok]
          exact htl.snoc (by show 1 ≤ byteLen buf; exact byteLen_pos hne)
            (by show byteLen done = byteLen done; rfl)
        · rw [htok, hbl2]
          have hsplit : m.tokens ++
              [({ kind := .operator k1,
                  span := { start := byteLen done, length := 1 } } : Token),
               { kind := .operator k2,
                 span := { start := byteLen done + 1, length := 1 } }] =
              (m.tokens ++
               [{ kind := .operator k1,
                  span := { start := byteLen done, length := 1 } }]) ++
              [({ kind := .operator k2,
                  span := { start := byteLen done + 1, length := 1 } } :
                Token)] := by
            simp
          rw [hsplit]
          have t1 := htl.snoc
            (t := { kind := .operator k1,
                    span := { start := byteLen done, length := 1 } })
            (by simp) (by simp)
          have t2 := t1.snoc
            (t := { kind := .operator k2,
                    span := { start := byteLen done + 1, length := 1 } })
            (by simp) (by simp)
          simpa using t2
    · rw [Bool.not_eq_true] at hop
      obtain ⟨mC, hcons, hCst, _, hdisj⟩ :=
        consume_operator_cases hm hin hs hpos hne hle hops
      have h1 := handle_operator_nonop hm hop hcons
      refine boundary_dispatch hin hpos h1 ?_ hnf
      rcases hdisj with ⟨k, hk, htok⟩ | ⟨k1, k2, hk1, hk2, hbl2, htok⟩
      · rw [htok]
        exact htl.snoc (by show 1 ≤ byteLen buf; exact byteLen_pos hne)
          (by show byteLen done = byteLen done; rfl)
      · rw [htok, hbl2]
        have hsplit : m.tokens ++
            [({ kind := .operator k1,
                span := { start := byteLen done, length := 1 } } : Token),
             { kind := .operator k2,
               span := { start := byteLen done + 1, length := 1 } }] =
            (m.tokens ++
             [{ kind := .operator k1,
                span := { start := byteLen done, length := 1 } }]) ++
            [({ kind := .operator k2,
                span := { start := byteLen done + 1, length := 1 } } :
              Token)] := by
          simp
        rw [hsplit]
        have t1 := htl.snoc
          (t := { kind := .operator k1,
                  span := { start := byteLen done, length := 1 } })
          (by simp) (by simp)
        have t2 := t1.snoc
          (t := { kind := .operator k2,
                  span := { start := byteLen done + 1, length := 1 } })
          (by simp) (by simp)
        simpa using t2
  | inString ss =>
    have hs : m.bufferedTokenStart = byteLen done := by
      rcases hbs with h | h
      · rw [hm] at h; exact State.noConfusion h
      · exact h
    by_cases hcl : stringClosePred ss c = true
    · -- closing quote: consume the delimiter and finalize
      have hc : c = (match ss with
          | StringState.inSingleQuote => '\''
          | StringState.inDoubleQuote => '"') := by
        cases ss
        · exact single_quote_eq hcl
        · exact double_quote_eq hcl
      have hsz : c.utf8Size = 1 := by
        cases ss <;> (rw [hc]; rfl)
      have hsl : byteSlice input m.bufferedTokenStart (pos + 1) =
          some (buf ++ [c]) := by
        rw [hin, hs, hpos]
        have e1 : byteLen done + byteLen buf + 1 =
            byteLen done + byteLen (buf ++ [c]) := by
          rw [byteLen_append, byteLen_singleton, hsz]
          omega
        have e2 : done ++ (buf ++ (c :: cs)) =
            done ++ ((buf ++ [c]) ++ cs) := by
          rw [List.append_cons]
        rw [e1, e2]
        exact byteSlice_append done (buf ++ [c]) cs
      have hlen0 : ¬ byteLen (buf ++ [c]) = 0 := by
        have := byteLen_pos (l := buf ++ [c]) (by simp)
        omega
      have hcons := consume_string_spec hm hsl
      rw [if_neg hlen0] at hcons
      have h1 := handle_string_close hm hcl hcons
      refine ⟨_, processOne_one h1,
        ⟨done ++ (buf ++ [c]), [], ?_, ?_, by simp [StateBuf],
          Or.inl rfl, ?_⟩, ?_⟩
      · rw [hin, List.append_cons]
        simp
      · rw [hpos, hsz]
        simp [byteLen_append, byteLen, byteLen_singleton]
        omega
      · have e3 : byteLen (done ++ (buf ++ [c])) =
            byteLen done + byteLen (buf ++ [c]) := byteLen_append _ _
        rw [e3]
        have := htl.snoc
          (t := { kind := .string (stringKindOf ss),
                  span := { start := m.bufferedTokenStart,
                            length := byteLen (buf ++ [c]) } })
          (by show 1 ≤ byteLen (buf ++ [c])
              exact byteLen_pos (by simp))
          (by show m.bufferedTokenStart = byteLen done; exact hs)
        exact this
      · rw [hm] at hnf
        cases ss
        · simp only [modeOf] at hnf ⊢
          rw [hc] at hnf
          simp only [noFat, if_pos] at hnf
          simpa using hnf
        · simp only [modeOf] at hnf ⊢
          rw [hc] at hnf
          simp only [noFat, if_pos] at hnf
          simpa using hnf
    · -- ordinary content character: consume it verbatim
      refine ⟨m, processOne_one (handle_string_cont hm
          (by rwa [Bool.not_eq_true] at hcl)),
        ⟨done, buf ++ [c], ?_, ?_, ?_, Or.inr hs, htl⟩, ?_⟩
      · rw [hin, List.append_cons]
      · rw [hpos, byteLen_append, byteLen_singleton]
        omega
      · rw [hm]; simp [StateBuf]
      · rw [hm] at hnf ⊢
        have hcne : ¬ (c = (match ss with
            | StringState.inSingleQuote => '\''
            | StringState.inDoubleQuote => '"')) := by
          intro hceq
          apply hcl
          cases ss
          · simp [stringClosePred, is_single_quote, hceq]
          · simp [stringClosePred, is_double_quote, hceq]
        cases ss
        · simp only [modeOf] at hnf ⊢
          simp only [noFat, if_neg (by simpa using hcne)] at hnf
          exact hnf
        · simp only [modeOf] at hnf ⊢
          simp only [noFat, if_neg (by simpa using hcne)] at hnf
          exact hnf

/-- The scanning loop preserves the coverage invariant to the end of
input. -/
theorem lexLoop_MInv {input : List Char} :
    ∀ (cs : List Char) (m : Machine) (pos : Nat) (mf : Machine),
    MInv input m pos cs →
    noFat (modeOf m.state) cs = true →
    lexLoop input m pos cs = some mf →
    MInv input mf (byteLen input) [] := by
  intro cs
  induction cs with
  | nil =>
    intro m pos mf hInv hnf hrun
    simp only [lexLoop, Option.some.injEq] at hrun
    subst hrun
    obtain ⟨done, buf, hin, hpos, hsb, hbs, htl⟩ := hInv
    have he : byteLen input = pos := by
      rw [hin, byteLen_append, byteLen_append]
      simp only [byteLen] at hpos ⊢
      omega
    rw [he]
    exact ⟨done, buf, hin, hpos, hsb, hbs, htl⟩
  | cons c rest ih =>
    intro m pos mf hInv hnf hrun
    obtain ⟨m₁, hp, hInv', hnf'⟩ := processOne_step hInv hnf
    rw [lexLoop_cons hp] at hrun
    exact ih m₁ (pos + c.utf8Size) mf hInv' hnf' hrun

/-- Tiling extension for the two shapes of operator-consume output. -/
theorem tiles_operator_append {toks res : List Token} {d n : Nat}
    (htl : Tiles 0 toks d) (hn : 1 ≤ n)
    (hdisj :
      (∃ k, k ≠ OperatorKind.invalid ∧
        res = toks ++
          [{ kind := .operator k, span := { start := d, length := n } }]) ∨
      (∃ k1 k2, k1 ≠ OperatorKind.invalid ∧ k2 ≠ OperatorKind.invalid ∧
        n = 2 ∧
        res = toks ++
          [{ kind := .operator k1, span := { start := d, length := 1 } },
           { kind := .operator k2,
             span := { start := d + 1, length := 1 } }])) :
    Tiles 0 res (d + n) := by
  rcases hdisj with ⟨k, hk, hres⟩ | ⟨k1, k2, hk1, hk2, hn2, hres⟩
  · rw [hres]
    exact htl.snoc (by show 1 ≤ n; omega) (by show d = d; rfl)
  · subst hn2
    rw [hres]
    have e : toks ++
        [({ kind := .operator k1,
            span := { start := d, length := 1 } } : Token),
         { kind := .operator k2, span := { start := d + 1, length := 1 } }] =
        (toks ++
         [{ kind := .operator k1, span := { start := d, length := 1 } }]) ++
        [({ kind := .operator k2,
            span := { start := d + 1, length := 1 } } : Token)] := by
      simp
    rw [e]
    have t1 := htl.snoc
      (t := { kind := .operator k1, span := { start := d, length := 1 } })
      (by show (1 : Nat) ≤ 1; omega) (by show d = d; rfl)
    have t2 := t1.snoc
      (t := { kind := .operator k2, span := { start := d + 1, length := 1 } })
      (by show (1 : Nat) ≤ 1; omega) (by show d + 1 = d + 1; rfl)
    simpa using t2

/-- Main coverage result: whenever `lex` completes and the input has no
multi-byte whitespace/unrecognized character outside string literals, the
emitted token spans tile the whole input exactly (string-token spans
include their quote delimiters). -/
theorem lex_tiles {input : List Char} {ts : List Token}
    {es : List LexerError} (h : lex input = some (ts, es))
    (hf : noFat none input = true) : Tiles 0 ts (byteLen input) := by
  have hInit : MInv input initMachine 0 input :=
    ⟨[], [], by simp, by simp [byteLen], rfl, Or.inl rfl, Tiles.nil 0⟩
  unfold lex at h
  cases hrun : lexLoop input initMachine 0 input with
  | none => rw [hrun] at h; exact absurd h (by simp)
  | some mf =>
    simp only [hrun] at h
    have hFin : MInv input mf (byteLen input) [] :=
      lexLoop_MInv input initMachine 0 mf hInit
        (by simpa [initMachine, modeOf] using hf) hrun
    obtain ⟨done, buf, hin, hpos, hsb, hbs, htl⟩ := hFin
    by_cases hstart : mf.state = State.start
    · rw [if_pos hstart] at h
      simp only [Option.some.injEq, Prod.mk.injEq] at h
      obtain ⟨hts, _⟩ := h
      rw [hstart] at hsb
      have hbuf : buf = [] := hsb
      subst hbuf
      have hd : byteLen done = byteLen input := by
        simp only [byteLen] at hpos
        omega
      rw [← hts, ← hd]
      exact htl
    · rw [if_neg hstart] at h
      have hs : mf.bufferedTokenStart = byteLen done := by
        rcases hbs with hb | hb
        · exact absurd hb hstart
        · exact hb
      cases hms : mf.state with
      | start => exact absurd hms hstart
      | inNumber =>
        rw [hms] at hsb
        have hsl : byteSlice input mf.bufferedTokenStart (byteLen input) =
            some buf := by
          rw [hs, hpos, hin]
          exact byteSlice_append done buf []
        have hlen0 : ¬ byteLen buf = 0 := by
          have := byteLen_pos hsb
          omega
        have hcons := consume_number_spec hms hsl
        rw [if_neg hlen0] at hcons
        simp only [hcons] at h
        simp only [Option.some.injEq, Prod.mk.injEq] at h
        obtain ⟨hts, _⟩ := h
        rw [← hts, hpos]
        exact htl.snoc (by show 1 ≤ byteLen buf; exact byteLen_pos hsb)
          (by show mf.bufferedTokenStart = byteLen done; exact hs)
      | inIdentifier =>
        rw [hms] at hsb
        have hsl : byteSlice input mf.bufferedTokenStart (byteLen input) =
            some buf := by
          rw [hs, hpos, hin]
          exact byteSlice_append done buf []
        have hlen0 : ¬ byteLen buf = 0 := by
          have := byteLen_pos hsb
          omega
        have hcons := consume_identifier_spec hms hsl
        rw [if_neg hlen0] at hcons
        simp only [hcons] at h
        simp only [Option.some.injEq, Prod.mk.injEq] at h
        obtain ⟨hts, _⟩ := h
        rw [← hts, hpos]
        exact htl.snoc (by show 1 ≤ byteLen buf; exact byteLen_pos hsb)
          (by show mf.bufferedTokenStart = byteLen done; exact hs)
      | inOperator =>
        rw [hms] at hsb
        obtain ⟨hne, hle, hops⟩ := hsb
        obtain ⟨mC, hcons, _, _, hdisj⟩ :=
          consume_operator_cases hms hin hs hpos hne hle hops
        simp only [hcons] at h
        simp only [Option.some.injEq, Prod.mk.injEq] at h
        obtain ⟨hts, _⟩ := h
        rw [← hts, hpos]
        exact tiles_operator_append htl (byteLen_pos hne) hdisj
      | inString ss =>
        have hsl : byteSlice input mf.bufferedTokenStart
            (byteLen input + 1) = none := by
          apply byteSlice_none_of_lt
          · rw [hs]; omega
          · omega
        have hcons := consume_string_none hms hsl
        simp only [hcons] at h
        exact Option.noConfusion h

/-! ## Operator-kind soundness: no emitted token is `Operator(Invalid)` -/

def GoodToks (ts : List Token) : Prop :=
  ∀ t ∈ ts, t.kind ≠ TokenKind.operator OperatorKind.invalid

theorem goodToks_append {ts : List Token} {t : Token} (h : GoodToks ts)
    (ht : t.kind ≠ TokenKind.operator OperatorKind.invalid) :
    GoodToks (ts ++ [t]) := by
  intro x hx
  rcases List.mem_append.mp hx with hx | hx
  · exact h x hx
  · simp only [List.mem_singleton] at hx
    subst hx
    exact ht

theorem goodToks_append2 {ts : List Token} {t1 t2 : Token} (h : GoodToks ts)
    (h1 : t1.kind ≠ TokenKind.operator OperatorKind.invalid)
    (h2 : t2.kind ≠ TokenKind.operator OperatorKind.invalid) :
    GoodToks (ts ++ [t1, t2]) := by
  intro x hx
  rcases List.mem_append.mp hx with hx | hx
  · exact h x hx
  · simp only [List.mem_cons, List.mem_singleton] at hx
    rcases hx with hx | hx | hx
    · subst hx; exact h1
    · subst hx; exact h2
    · cases hx

/-- The operator-consume result appends only resolvable operator tokens. -/
theorem consume_operator_good {done buf : List Char} {mtoks : List Token}
    {mC : Machine}
    (hgt : GoodToks mtoks)
    (hdisj :
      (∃ k, k ≠ OperatorKind.invalid ∧
        mC.tokens = mtoks ++
          [{ kind := .operator k,
             span := { start := byteLen done, length := byteLen buf } }]) ∨
      (∃ k1 k2, k1 ≠ OperatorKind.invalid ∧ k2 ≠ OperatorKind.invalid ∧
        byteLen buf = 2 ∧
        mC.tokens = mtoks ++
          [{ kind := .operator k1,
             span := { start := byteLen done, length := 1 } },
           { kind := .operator k2,
             span := { start := byteLen done + 1, length := 1 } }])) :
    GoodToks mC.tokens := by
  rcases hdisj with ⟨k, hk, hres⟩ | ⟨k1, k2, hk1, hk2, _, hres⟩
  · rw [hres]
    exact goodToks_append hgt (by simp [hk])
  · rw [hres]
    exact goodToks_append2 hgt (by simp [hk1]) (by simp [hk2])

/-- Buffer shape for the operator-kind invariant. -/
def OpStateBuf : State → List Char → Prop
  | .start, buf => buf = []
  | .inOperator, buf =>
      buf ≠ [] ∧ byteLen buf ≤ 2 ∧ ∀ c ∈ buf, is_operator c = true
  | _, _ => True

/-- Loop invariant for operator-kind soundness (no gap-freedom needed). -/
def OpInv (input : List Char) (m : Machine) (pos : Nat) (cs : List Char) :
    Prop :=
  ∃ done buf,
    input = done ++ (buf ++ cs) ∧
    pos = byteLen done + byteLen buf ∧
    OpStateBuf m.state buf ∧
    (m.state = State.start ∨ m.bufferedTokenStart = byteLen done) ∧
    GoodToks m.tokens

/-- `Start`-state dispatch preserves the operator-kind invariant. -/
theorem start_dispatch_op {input done cs : List Char} {c : Char}
    {m : Machine} (hst : m.state = State.start)
    (hin : input = done ++ (c :: cs))
    (hgt : GoodToks m.tokens) :
    ∃ m',
      (handle_character input m (byteLen done) c = some (m', true) ∨
       (∃ mm, handle_character input m (byteLen done) c = some (mm, false) ∧
              handle_character input mm (byteLen done) c = some (m', true))) ∧
      OpInv input m' (byteLen done + c.utf8Size) cs := by
  by_cases hd : is_digit c = true
  · exact ⟨{ m with bufferedTokenStart := byteLen done, state := .inNumber },
      Or.inr ⟨_, handle_start_digit hst hd, handle_number_cont rfl hd⟩,
      ⟨done, [c], by simpa using hin, by simp [byteLen], trivial,
        Or.inr rfl, hgt⟩⟩
  · rw [Bool.not_eq_true] at hd
    by_cases hl : is_letter c = true
    · exact ⟨{ m with
          bufferedTokenStart := byteLen done,
          state := .inIdentifier },
        Or.inr ⟨_, handle_start_letter hst hd hl,
          handle_identifier_cont rfl (letter_in_identifier hl)⟩,
        ⟨done, [c], by simpa using hin, by simp [byteLen], trivial,
          Or.inr rfl, hgt⟩⟩
    · rw [Bool.not_eq_true] at hl
      by_cases hsq : is_single_quote c = true
      · exact ⟨{ m with
            bufferedTokenStart := byteLen done,
            state := .inString .inSingleQuote },
          Or.inl (handle_start_squote hst hd hl hsq),
          ⟨done, [c], by simpa using hin, by simp [byteLen], trivial,
            Or.inr rfl, hgt⟩⟩
      · rw [Bool.not_eq_true] at hsq
        by_cases hdq : is_double_quote c = true
        · exact ⟨{ m with
              bufferedTokenStart := byteLen done,
              state := .inString .inDoubleQuote },
            Or.inl (handle_start_dquote hst hd hl hsq hdq),
            ⟨done, [c], by simpa using hin, by simp [byteLen], trivial,
              Or.inr rfl, hgt⟩⟩
        · rw [Bool.not_eq_true] at hdq
          by_cases hop : is_operator c = true
          · have hsl : byteSlice input (byteLen done) (byteLen done) =
                some [] := by
              rw [hin]; exact byteSlice_empty done (c :: cs)
            refine ⟨{ m with
                bufferedTokenStart := byteLen done,
                state := .inOperator },
              Or.inr ⟨_, handle_start_operator hst hd hl hsq hdq hop,
                handle_operator_cont rfl hop hsl (by simp [byteLen])⟩,
              ⟨done, [c], by simpa using hin, by simp [byteLen],
                ⟨by simp, ?_, by simpa using hop⟩, Or.inr rfl, hgt⟩⟩
            rw [byteLen_singleton, operator_utf8Size hop]
            omega
          · rw [Bool.not_eq_true] at hop
            by_cases hsc : is_semicolon c = true
            · refine ⟨_, Or.inl
                (handle_start_semicolon hst hd hl hsq hdq hop hsc),
                ⟨done ++ [c], [], by simp [hin], ?_,
                  by simp [OpStateBuf, hst], Or.inl hst, ?_⟩⟩
              · simp [byteLen_append, byteLen]
              · exact goodToks_append hgt (by simp [create_token])
            · rw [Bool.not_eq_true] at hsc
              by_cases hws : is_whitespace c = true
              · refine ⟨_, Or.inl
                  (handle_start_whitespace hst hd hl hsq hdq hop hsc hws),
                  ⟨done ++ [c], [], by simp [hin], ?_,
                    by simp [OpStateBuf, hst], Or.inl hst, ?_⟩⟩
                · simp [byteLen_append, byteLen]
                · exact goodToks_append hgt (by simp [create_token])
              · rw [Bool.not_eq_true] at hws
                have hsl : byteSlice input (byteLen done) (byteLen done) =
                    some [] := by
                  rw [hin]; exact byteSlice_empty done (c :: cs)
                refine ⟨_, Or.inl
                  (handle_start_invalid hst hd hl hsq hdq hop hsc hws hsl),
                  ⟨done ++ [c], [], by simp [hin], ?_,
                    by simp [OpStateBuf, hst], Or.inl hst, ?_⟩⟩
                · simp [byteLen_append, byteLen]
                · exact goodToks_append hgt (by simp [create_token])

/-- Boundary consume followed by re-dispatch, operator-kind version. -/
theorem boundary_dispatch_op {input done buf cs : List Char} {c : Char}
    {m mC : Machine} {pos : Nat}
    (hin : input = done ++ (buf ++ (c :: cs)))
    (hpos : pos = byteLen done + byteLen buf)
    (h1 : handle_character input m pos c =
      some ({ mC with state := .start }, false))
    (hgt : GoodToks mC.tokens) :
    ∃ m₁, processOne input m pos c = some m₁ ∧
          OpInv input m₁ (pos + c.utf8Size) cs := by
  have hin' : input = (done ++ buf) ++ (c :: cs) := by rw [hin]; simp
  have hbl : byteLen (done ++ buf) = pos := by rw [byteLen_append, hpos]
  obtain ⟨m', hh, hInv⟩ :=
    start_dispatch_op (m := { mC with state := .start }) rfl hin' hgt
  rw [hbl] at hInv
  refine ⟨m', ?_, hInv⟩
  rcases hh with h2 | ⟨mm, h2, h3⟩
  · exact processOne_two h1 (by rw [hbl] at h2; exact h2)
  · exact processOne_three h1 (by rw [hbl] at h2; exact h2)
      (by rw [hbl] at h3; exact h3)

/-- One loop iteration preserves the operator-kind invariant. -/
theorem processOne_step_op {input : List Char} {m : Machine} {pos : Nat}
    {c : Char} {cs : List Char}
    (hInv : OpInv input m pos (c :: cs)) :
    ∃ m₁, processOne input m pos c = some m₁ ∧
          OpInv input m₁ (pos + c.utf8Size) cs := by
  obtain ⟨done, buf, hin, hpos, hsb, hbs, hgt⟩ := hInv
  cases hm : m.state with
  | start =>
    rw [hm] at hsb
    have hbuf : buf = [] := hsb
    subst hbuf
    have hpos' : pos = byteLen done := by simpa [byteLen] using hpos
    subst hpos'
    obtain ⟨m', hh, hInv'⟩ := start_dispatch_op hm (by simpa using hin) hgt
    refine ⟨m', ?_, hInv'⟩
    rcases hh with h1 | ⟨mm, h1, h2⟩
    · exact processOne_one h1
    · exact processOne_two h1 h2
  | inNumber =>
    have hs : m.bufferedTokenStart = byteLen done := by
      rcases hbs with h | h
      · rw [hm] at h; exact State.noConfusion h
      · exact h
    by_cases hd : is_digit c = true
    · refine ⟨m, processOne_one (handle_number_cont hm hd),
        ⟨done, buf ++ [c], ?_, ?_, ?_, Or.inr hs, hgt⟩⟩
      · rw [hin, List.append_cons]
      · rw [hpos, byteLen_append, byteLen_singleton]
        omega
      · rw [hm]; trivial
    · rw [Bool.not_eq_true] at hd
      have hsl : byteSlice input m.bufferedTokenStart pos = some buf := by
        rw [hin, hs, hpos]
        exact byteSlice_append done buf (c :: cs)
      have hcons := consume_number_spec hm hsl
      refine boundary_dispatch_op hin hpos
        (handle_number_bound hm hd hcons) ?_
      exact goodToks_append hgt (by simp)
  | inIdentifier =>
    have hs : m.bufferedTokenStart = byteLen done := by
      rcases hbs with h | h
      · rw [hm] at h; exact State.noConfusion h
      · exact h
    by_cases hd : is_in_identifier c = true
    · refine ⟨m, processOne_one (handle_identifier_cont hm hd),
        ⟨done, buf ++ [c], ?_, ?_, ?_, Or.inr hs, hgt⟩⟩
      · rw [hin, List.append_cons]
      · rw [hpos, byteLen_append, byteLen_singleton]
        omega
      · rw [hm]; trivial
    · rw [Bool.not_eq_true] at hd
      have hsl : byteSlice input m.bufferedTokenStart pos = some buf := by
        rw [hin, hs, hpos]
        exact byteSlice_append done buf (c :: cs)
      have hcons := consume_identifier_spec hm hsl
      refine boundary_dispatch_op hin hpos
        (handle_identifier_bound hm hd hcons) ?_
      refine goodToks_append hgt ?_
      by_cases hk : is_keyword buf = true <;> simp [hk]
  | inOperator =>
    rw [hm] at hsb
    obtain ⟨hne, hle, hops⟩ := hsb
    have hs : m.bufferedTokenStart = byteLen done := by
      rcases hbs with h | h
      · rw [hm] at h; exact State.noConfusion h
      · exact h
    have hsl : byteSlice input m.bufferedTokenStart pos = some buf := by
      rw [hin, hs, hpos]
      exact byteSlice_append done buf (c :: cs)
    by_cases hop : is_operator c = true
    · by_cases hfull : byteLen buf < 2
      · refine ⟨m, processOne_one (handle_operator_cont hm hop hsl hfull),
          ⟨done, buf ++ [c], ?_, ?_, ?_, Or.inr hs, hgt⟩⟩
        · rw [hin, List.append_cons]
        · rw [hpos, byteLen_append, byteLen_singleton]
          omega
        · rw [hm]
          refine ⟨by simp, ?_, ?_⟩
          · rw [byteLen_append, byteLen_singleton, operator_utf8Size hop]
            omega
          · intro x hx
            rcases List.mem_append.mp hx with h | h
            · exact hops x h
            · simp at h; subst h; exact hop
      · obtain ⟨mC, hcons, _, _, hdisj⟩ :=
          consume_operator_cases hm hin hs hpos hne hle hops
        exact boundary_dispatch_op hin hpos
          (handle_operator_full hm hop hsl hfull hcons)
          (consume_operator_good hgt hdisj)
    · rw [Bool.not_eq_true] at hop
      obtain ⟨mC, hcons, _, _, hdisj⟩ :=
        consume_operator_cases hm hin hs hpos hne hle hops
      exact boundary_dispatch_op hin hpos
        (handle_operator_nonop hm hop hcons)
        (consume_operator_good hgt hdisj)
  | inString ss =>
    have hs : m.bufferedTokenStart = byteLen done := by
      rcases hbs with h | h
      · rw [hm] at h; exact State.noConfusion h
      · exact h
    by_cases hcl : stringClosePred ss c = true
    · have hsz : c.utf8Size = 1 := by
        cases ss
        · rw [single_quote_eq hcl]; rfl
        · rw [double_quote_eq hcl]; rfl
      have hsl : byteSlice input m.bufferedTokenStart (pos + 1) =
          some (buf ++ [c]) := by
        rw [hin, hs, hpos]
        have e1 : byteLen done + byteLen buf + 1 =
            byteLen done + byteLen (buf ++ [c]) := by
          rw [byteLen_append, byteLen_singleton, hsz]
          omega
        have e2 : done ++ (buf ++ (c :: cs)) =
            done ++ ((buf ++ [c]) ++ cs) := by
          rw [List.append_cons]
        rw [e1, e2]
        exact byteSlice_append done (buf ++ [c]) cs
      have hcons := consume_string_spec hm hsl
      have h1 := handle_string_close hm hcl hcons
      refine ⟨_, processOne_one h1,
        ⟨done ++ (buf ++ [c]), [], ?_, ?_, by simp [OpStateBuf],
          Or.inl rfl, ?_⟩⟩
      · rw [hin, List.append_cons]
        simp
      · rw [hpos, hsz]
        simp [byteLen_append, byteLen, byteLen_singleton]
        omega
      · exact goodToks_append hgt (by simp)
    · refine ⟨m, processOne_one (handle_string_cont hm
          (by rwa [Bool.not_eq_true] at hcl)),
        ⟨done, buf ++ [c], ?_, ?_, ?_, Or.inr hs, hgt⟩⟩
      · rw [hin, List.append_cons]
      · rw [hpos, byteLen_append, byteLen_singleton]
        omega
      · rw [hm]; trivial

/-- The loop preserves the operator-kind invariant to the end of input. -/
theorem lexLoop_OpInv {input : List Char} :
    ∀ (cs : List Char) (m : Machine) (pos : Nat) (mf : Machine),
    OpInv input m pos cs →
    lexLoop input m pos cs = some mf →
    OpInv input mf (byteLen input) [] := by
  intro cs
  induction cs with
  | nil =>
    intro m pos mf hInv hrun
    simp only [lexLoop, Option.some.injEq] at hrun
    subst hrun
    obtain ⟨done, buf, hin, hpos, hsb, hbs, hgt⟩ := hInv
    have he : byteLen input = pos := by
      rw [hin, byteLen_append, byteLen_append]
      simp only [byteLen] at hpos ⊢
      omega
    rw [he]
    exact ⟨done, buf, hin, hpos, hsb, hbs, hgt⟩
  | cons c rest ih =>
    intro m pos mf hInv hrun
    obtain ⟨m₁, hp, hInv'⟩ := processOne_step_op hInv
    rw [lexLoop_cons hp] at hrun
    exact ih m₁ (pos + c.utf8Size) mf hInv' hrun

/-- Operator-kind soundness of the whole run, including the end-of-input
flush. -/
theorem lex_good_operators {input : List Char} {ts : List Token}
    {es : List LexerError} (h : lex input = some (ts, es)) :
    GoodToks ts := by
  have hInit : OpInv input initMachine 0 input :=
    ⟨[], [], by simp, by simp [byteLen], rfl, Or.inl rfl, by
      intro t ht; cases ht⟩
  unfold lex at h
  cases hrun : lexLoop input initMachine 0 input with
  | none => rw [hrun] at h; exact absurd h (by simp)
  | some mf =>
    simp only [hrun] at h
    have hFin : OpInv input mf (byteLen input) [] :=
      lexLoop_OpInv input initMachine 0 mf hInit hrun
    obtain ⟨done, buf, hin, hpos, hsb, hbs, hgt⟩ := hFin
    by_cases hstart : mf.state = State.start
    · rw [if_pos hstart] at h
      simp only [Option.some.injEq, Prod.mk.injEq] at h
      obtain ⟨hts, _⟩ := h
      rw [← hts]
      exact hgt
    · rw [if_neg hstart] at h
      have hs : mf.bufferedTokenStart = byteLen done := by
        rcases hbs with hb | hb
        · exact absurd hb hstart
        · exact hb
      cases hms : mf.state with
      | start => exact absurd hms hstart
      | inNumber =>
        have hsl : byteSlice input mf.bufferedTokenStart (byteLen input) =
            some buf := by
          rw [hs, hpos, hin]
          exact byteSlice_append done buf []
        have hcons := consume_number_spec hms hsl
        simp only [hcons] at h
        simp only [Option.some.injEq, Prod.mk.injEq] at h
        obtain ⟨hts, _⟩ := h
        rw [← hts]
        exact goodToks_append hgt (by simp)
      | inIdentifier =>
        have hsl : byteSlice input mf.bufferedTokenStart (byteLen input) =
            some buf := by
          rw [hs, hpos, hin]
          exact byteSlice_append done buf []
        have hcons := consume_identifier_spec hms hsl
        simp only [hcons] at h
        simp only [Option.some.injEq, Prod.mk.injEq] at h
        obtain ⟨hts, _⟩ := h
        rw [← hts]
        refine goodToks_append hgt ?_
        by_cases hk : is_keyword buf = true <;> simp [hk]
      | inOperator =>
        rw [hms] at hsb
        obtain ⟨hne, hle, hops⟩ := hsb
        obtain ⟨mC, hcons, _, _, hdisj⟩ :=
          consume_operator_cases hms hin hs hpos hne hle hops
        simp only [hcons] at h
        simp only [Option.some.injEq, Prod.mk.injEq] at h
        obtain ⟨hts, _⟩ := h
        rw [← hts]
        exact consume_operator_good hgt hdisj
      | inString ss =>
        have hsl : byteSlice input mf.bufferedTokenStart
            (byteLen input + 1) = none := by
          apply byteSlice_none_of_lt
          · rw [hs]; omega
          · omega
        have hcons := consume_string_none hms hsl
        simp only [hcons] at h
        exact Option.noConfusion h

/-! ## Whole-input string literals -/

/-- The quote character that opens/closes a literal of the given kind. -/
def quoteCharOf : StringState → Char
  | .inSingleQuote => '\''
  | .inDoubleQuote => '"'

theorem quoteCharOf_utf8Size (ss : StringState) :
    (quoteCharOf ss).utf8Size = 1 := by
  cases ss <;> rfl

theorem stringClosePred_quote (ss : StringState) :
    stringClosePred ss (quoteCharOf ss) = true := by
  cases ss <;> rfl

theorem stringClosePred_ne {ss : StringState} {c : Char}
    (h : c ≠ quoteCharOf ss) : stringClosePred ss c = false := by
  cases ss
  · simpa [stringClosePred, is_single_quote, quoteCharOf] using h
  · simpa [stringClosePred, is_double_quote, quoteCharOf] using h

theorem handle_start_quote {input : List Char} {m : Machine} {pos : Nat}
    (ss : StringState) (hst : m.state = State.start) :
    handle_character input m pos (quoteCharOf ss) =
      some ({ m with bufferedTokenStart := pos, state := .inString ss },
        true) := by
  cases ss
  · exact handle_start_squote hst (by decide) (by decide) (by decide)
  · exact handle_start_dquote hst (by decide) (by decide) (by decide)
      (by decide)

/-- While inside a string literal, every non-closing character is consumed
verbatim without touching the machine. -/
theorem lexLoop_string_content (input : List Char) {ss : StringState}
    {m : Machine} (hst : m.state = State.inString ss) :
    ∀ (cs : List Char) (pos : Nat) (rest : List Char),
    (∀ c ∈ cs, c ≠ quoteCharOf ss) →
    lexLoop input m pos (cs ++ rest) =
      lexLoop input m (pos + byteLen cs) rest := by
  intro cs
  induction cs with
  | nil =>
    intro pos rest _
    simp [byteLen]
  | cons c cs ih =>
    intro pos rest hq
    have h1 := @handle_string_cont input m pos c ss hst
      (stringClosePred_ne (hq c (by simp)))
    have e : pos + c.utf8Size + byteLen cs = pos + byteLen (c :: cs) := by
      simp [byteLen]; omega
    rw [List.cons_append, lexLoop_cons (processOne_one h1),
      ih _ rest (fun x hx => hq x (List.mem_cons_of_mem _ hx)), e]

/-- A whole input consisting of one matched string literal lexes to a
single `String` token whose span starts at the opening quote and covers
content plus both delimiters. -/
theorem lex_whole_string_literal (ss : StringState) (cs : List Char)
    (hq : ∀ c ∈ cs, c ≠ quoteCharOf ss) :
    lex (quoteCharOf ss :: (cs ++ [quoteCharOf ss])) =
      some ([{ kind := .string (stringKindOf ss),
               span := { start := 0, length := byteLen cs + 2 } }], []) := by
  have hblen : byteLen (quoteCharOf ss :: (cs ++ [quoteCharOf ss])) =
      byteLen cs + 2 := by
    simp [byteLen, byteLen_append, quoteCharOf_utf8Size]
    omega
  have h1 : handle_character (quoteCharOf ss :: (cs ++ [quoteCharOf ss]))
      initMachine 0 (quoteCharOf ss) =
      some ({ initMachine with
              bufferedTokenStart := 0,
              state := .inString ss }, true) :=
    handle_start_quote ss rfl
  have hloop := lexLoop_string_content
    (quoteCharOf ss :: (cs ++ [quoteCharOf ss]))
    (m := { initMachine with
            bufferedTokenStart := 0,
            state := .inString ss })
    rfl cs (0 + (quoteCharOf ss).utf8Size) [quoteCharOf ss] hq
  have hsl : byteSlice (quoteCharOf ss :: (cs ++ [quoteCharOf ss])) 0
      ((0 + (quoteCharOf ss).utf8Size + byteLen cs) + 1) =
      some (quoteCharOf ss :: (cs ++ [quoteCharOf ss])) := by
    have e : 0 + (quoteCharOf ss).utf8Size + byteLen cs + 1 =
        byteLen (quoteCharOf ss :: (cs ++ [quoteCharOf ss])) := by
      rw [hblen, quoteCharOf_utf8Size]
      omega
    rw [e]
    exact byteSlice_all _
  have hcons := consume_string_spec
    (m := { initMachine with
            bufferedTokenStart := 0,
            state := .inString ss })
    rfl hsl
  have hlen0 : ¬ byteLen (quoteCharOf ss :: (cs ++ [quoteCharOf ss])) = 0 :=
    by rw [hblen]; omega
  rw [if_neg hlen0] at hcons
  have hclose := handle_string_close (c := quoteCharOf ss) rfl
    (stringClosePred_quote ss) hcons
  unfold lex
  rw [lexLoop_cons (processOne_one h1), hloop,
    lexLoop_cons (processOne_one hclose)]
  simp only [lexLoop]
  simp [initMachine, hblen]

/-! ## Keyword set characterization -/

theorem is_keyword_iff {s : List Char} :
    is_keyword s = true ↔
      s ∈ ["let".data, "const".data, "if".data, "else".data, "while".data,
           "for".data, "function".data, "mmk".data] := by
  simp only [is_keyword, Bool.or_eq_true, beq_iff_eq, List.mem_cons,
    List.mem_singleton]
  tauto

/-- Sum of all emitted token span lengths. -/
def sumSpanLengths (ts : List Token) : Nat :=
  ts.foldr (fun t a => t.span.length + a) 0

/-! ## Claim theorems -/

/-- C1: the claim says every UTF-8 input completes without a panic, in
particular inputs ending inside a string literal.  The code contradicts
this: on the one-character input `'` the end-of-input flush runs the
`InString` arm of `consume_buffered_token`, which advances the byte index
to `input.len() + 1` and then slices `input[0..2]` out of bounds — a Rust
panic, modelled here as `none`. -/
theorem unterminated_string_panics : lexStr "'" = none := by
  decide

/-- C4: the claim says an unterminated string at end of input is finalized
as a `String` token with the consumed content and no diagnostic.  The code
instead panics on the out-of-bounds slice `input[0..len+1]` in the flush,
modelled as `none`; trailing numbers, identifiers and operators do flush
correctly, but the string case does not. -/
theorem unterminated_string_flush_panics : lexStr "'a" = none := by
  decide

/-- C2 counterexample: on the input `''` followed by U+00A0 (a two-byte
whitespace character), the emitted spans sum to 3 and the two
consumed quote delimiters add 2 more, but the input is 4 bytes long: the
claimed equation `span union + delimiter bytes = input length` fails, both
because string spans already include their delimiters and because the
two-byte whitespace gets a 1-byte span. -/
theorem coverage_claim_counterexample :
    lex ['\'', '\'', Char.ofNat 0xA0] =
      some ([{ kind := .string .singleQuoted,
               span := { start := 0, length := 2 } },
             { kind := .whitespace, span := { start := 2, length := 1 } }],
        []) ∧
    sumSpanLengths
        [{ kind := .string .singleQuoted,
           span := { start := 0, length := 2 } },
         { kind := .whitespace, span := { start := 2, length := 1 } }] + 2 ≠
      byteLen ['\'', '\'', Char.ofNat 0xA0] := by
  decide

/-- C2 (amended): for every input on which `lex` completes, provided every
whitespace or unrecognized character outside string literals is a single
byte (`noFat`), the emitted token spans alone tile the full byte length of
the input with no gaps and no overlaps — quote delimiter bytes are already
included in the string tokens' spans, not added separately — and the token
list is strictly ordered by ascending span start. -/
theorem token_spans_cover_input (input : List Char) (ts : List Token)
    (es : List LexerError) (h : lex input = some (ts, es))
    (hf : noFat none input = true) :
    Tiles 0 ts (byteLen input) ∧ StrictAsc ts :=
  ⟨lex_tiles h hf, (lex_tiles h hf).strictAsc⟩

/-- Witness for C2 at the concrete input `"let value = 1;"`. -/
theorem token_spans_cover_input_witness :
    Tiles 0
      [create_token .keyword 0 3, create_token .whitespace 3 1,
       create_token .identifier 4 5, create_token .whitespace 9 1,
       create_token (.operator .equal) 10 1, create_token .whitespace 11 1,
       create_token .number 12 1, create_token .semicolon 13 1]
      (byteLen "let value = 1;".data) ∧
    StrictAsc
      [create_token .keyword 0 3, create_token .whitespace 3 1,
       create_token .identifier 4 5, create_token .whitespace 9 1,
       create_token (.operator .equal) 10 1, create_token .whitespace 11 1,
       create_token .number 12 1, create_token .semicolon 13 1] :=
  token_spans_cover_input "let value = 1;".data
    [create_token .keyword 0 3, create_token .whitespace 3 1,
     create_token .identifier 4 5, create_token .whitespace 9 1,
     create_token (.operator .equal) 10 1, create_token .whitespace 11 1,
     create_token .number 12 1, create_token .semicolon 13 1]
    [] (by decide) (by decide)

/-- C3 counterexample: lexing `'a'` yields a `String` token with span
start 0 and length 3 — the span covers the opening quote byte, the content
byte and the closing quote byte — whereas the claim requires the span of
only the content strictly between the delimiters, start 1 and length 1. -/
theorem string_span_claim_counterexample :
    lexStr "'a'" =
      some ([{ kind := .string .singleQuoted,
               span := { start := 0, length := 3 } }], []) ∧
    ({ start := 0, length := 3 } : Span) ≠
      ({ start := 1, length := 1 } : Span) := by
  decide

/-- C3 (amended): for every terminated string literal, the emitted
`String(kind)` token's span covers the literal *including* both quote
delimiters: it starts at the opening quote byte and its length equals the
UTF-8 byte count of the content plus 2.  (Stated for inputs consisting of
exactly one literal; the length is byte-accurate over multi-byte
content.) -/
theorem terminated_string_span (ss : StringState) (content : List Char)
    (h : ∀ c ∈ content, c ≠ quoteCharOf ss) :
    lex (quoteCharOf ss :: (content ++ [quoteCharOf ss])) =
      some ([{ kind := .string (stringKindOf ss),
               span := { start := 0, length := byteLen content + 2 } }],
        []) :=
  lex_whole_string_literal ss content h

/-- Witness for C3 at the concrete literal `'ab'`. -/
theorem terminated_string_span_witness :
    lex (quoteCharOf .inSingleQuote ::
        (['a', 'b'] ++ [quoteCharOf .inSingleQuote])) =
      some ([{ kind := .string (stringKindOf .inSingleQuote),
               span := { start := 0, length := byteLen ['a', 'b'] + 2 } }],
        []) :=
  terminated_string_span .inSingleQuote ['a', 'b'] (by decide)

/-- C5 counterexample: lexing `=++` records one `InvalidOperator` error
over `=+` and then emits `Add(1,1)` and `Add(2,1)`: the second character
`+` is emitted immediately as its own 1-length token and is *not*
recombined with the following `+` into an `Increment(1,2)` token, contrary
to the claim's restart-and-recombine description. -/
theorem operator_split_claim_counterexample :
    lexStr "=++" =
      some ([create_token (.operator .equal) 0 1,
             create_token (.operator .add) 1 1,
             create_token (.operator .add) 2 1],
        [{ span := { start := 0, length := 2 },
           kind := .invalidOperator }]) ∧
    create_token (.operator .increment) 1 2 ∉
      [create_token (.operator .equal) 0 1,
       create_token (.operator .add) 1 1,
       create_token (.operator .add) 2 1] := by
  decide

/-- C5 (amended): whenever a buffered 2-character operator slice does not
resolve, `consume_buffered_token` records exactly one `InvalidOperator`
error whose span covers both characters, emits the first character's own
1-length operator token (resolved independently), and then also emits the
second character's own 1-length operator token (resolved independently);
scanning resumes at the character following the run — the second character
is never recombined with subsequent operator characters. -/
theorem invalid_operator_run_split (input : List Char) (m : Machine)
    (pos : Nat) (done rest : List Char) (c1 c2 : Char)
    (hst : m.state = State.inOperator)
    (hin : input = done ++ ([c1, c2] ++ rest))
    (hs : m.bufferedTokenStart = byteLen done)
    (hpos : pos = byteLen done + byteLen [c1, c2])
    (h1 : is_operator c1 = true) (h2 : is_operator c2 = true)
    (hk : match_operator_slice_to_operator_kind [c1, c2] = .invalid) :
    consume_buffered_token input m pos = some { m with
      bufferedTokenStart := m.bufferedTokenStart + 1,
      tokens := m.tokens ++
        [create_token (.operator (match_operator_slice_to_operator_kind [c1]))
           m.bufferedTokenStart 1,
         create_token (.operator (match_operator_slice_to_operator_kind [c2]))
           (m.bufferedTokenStart + 1) 1],
      errors := m.errors ++
        [{ span := { start := m.bufferedTokenStart, length := 2 },
           kind := .invalidOperator }] } :=
  consume_operator_invalid_spec hst hin hs hpos h1 h2 hk

/-- Witness for C5 at the concrete run `=+`. -/
theorem invalid_operator_run_split_witness :
    consume_buffered_token "=+".data
      { state := .inOperator, bufferedTokenStart := 0, tokens := [],
        errors := [] } 2 =
    some
      { state := .inOperator, bufferedTokenStart := 1,
        tokens :=
          [create_token
             (.operator (match_operator_slice_to_operator_kind ['='])) 0 1,
           create_token
             (.operator (match_operator_slice_to_operator_kind ['+'])) 1 1],
        errors := [{ span := { start := 0, length := 2 },
                     kind := .invalidOperator }] } :=
  invalid_operator_run_split "=+".data
    { state := .inOperator, bufferedTokenStart := 0, tokens := [],
      errors := [] }
    2 [] [] '=' '+' rfl (by decide) (by decide) (by decide) (by decide)
    (by decide) (by decide)

/-- C6: the operator lookup maps each of the eighteen defined 1- and
2-character spellings to its documented kind (the source spells `Subtract`
as `Substract`), and every other slice maps to `Invalid`. -/
theorem operator_lookup_table :
    (match_operator_slice_to_operator_kind ['+'] = .add ∧
     match_operator_slice_to_operator_kind ['-'] = .substract ∧
     match_operator_slice_to_operator_kind ['*'] = .multiply ∧
     match_operator_slice_to_operator_kind ['/'] = .divide ∧
     match_operator_slice_to_operator_kind ['%'] = .modulo ∧
     match_operator_slice_to_operator_kind ['='] = .equal ∧
     match_operator_slice_to_operator_kind ['!'] = .not ∧
     match_operator_slice_to_operator_kind ['>'] = .greaterThan ∧
     match_operator_slice_to_operator_kind ['<'] = .lessThan ∧
     match_operator_slice_to_operator_kind ['+', '='] = .compoundAdd ∧
     match_operator_slice_to_operator_kind ['-', '='] = .compoundSubstract ∧
     match_operator_slice_to_operator_kind ['*', '='] = .compoundMultiply ∧
     match_operator_slice_to_operator_kind ['/', '='] = .compoundDivide ∧
     match_operator_slice_to_operator_kind ['%', '='] = .compoundModulo ∧
     match_operator_slice_to_operator_kind ['=', '='] = .doubleEqual ∧
     match_operator_slice_to_operator_kind ['!', '='] = .notEqual ∧
     match_operator_slice_to_operator_kind ['+', '+'] = .increment ∧
     match_operator_slice_to_operator_kind ['-', '-'] = .decrement) ∧
    ∀ s : List Char,
      s ∉ [['+'], ['-'], ['*'], ['/'], ['='], ['%'], ['!', '='], ['!'],
           ['>'], ['<'], ['+', '='], ['-', '='], ['*', '='], ['/', '='],
           ['%', '='], ['=', '='], ['+', '+'], ['-', '-']] →
      match_operator_slice_to_operator_kind s = .invalid := by
  refine ⟨by decide, ?_⟩
  intro s hs
  simp only [List.mem_cons, List.mem_singleton, not_or] at hs
  obtain ⟨h1, h2, h3, h4, h5, h6, h7, h8, h9, h10, h11, h12, h13, h14, h15,
    h16, h17, h18, -⟩ := hs
  unfold match_operator_slice_to_operator_kind
  rw [if_neg h1, if_neg h2, if_neg h3, if_neg h4, if_neg h5, if_neg h6,
    if_neg h7, if_neg h8, if_neg h9, if_neg h10, if_neg h11, if_neg h12,
    if_neg h13, if_neg h14, if_neg h15, if_neg h16, if_neg h17, if_neg h18]

/-- Witness for C6's negative clause at the concrete slice `&&`. -/
theorem operator_lookup_table_witness :
    match_operator_slice_to_operator_kind ['&', '&'] = .invalid :=
  operator_lookup_table.2 ['&', '&'] (by decide)

/-- C7: finalizing an identifier-shaped buffered slice emits `Keyword`
exactly when the slice's text is one of the eight fixed keywords
(`let, const, if, else, while, for, function, mmk`), else `Identifier`;
keyword membership is consulted only here, in `consume_buffered_token`. -/
theorem identifier_keyword_law (input : List Char) (m : Machine) (pos : Nat)
    (buf : List Char) (hst : m.state = State.inIdentifier)
    (hsl : byteSlice input m.bufferedTokenStart pos = some buf) :
    consume_buffered_token input m pos = some { m with
      tokens := m.tokens ++
        [{ kind := if is_keyword buf then TokenKind.keyword
                   else TokenKind.identifier,
           span := { start := m.bufferedTokenStart,
                     length := if byteLen buf = 0 then 1
                               else byteLen buf } }] } ∧
    (is_keyword buf = true ↔
      buf ∈ ["let".data, "const".data, "if".data, "else".data,
             "while".data, "for".data, "function".data, "mmk".data]) :=
  ⟨consume_identifier_spec hst hsl, is_keyword_iff⟩

/-- Witness for C7 at the buffered slice `mmk`. -/
theorem identifier_keyword_law_witness :
    consume_buffered_token "mmk".data
      { state := .inIdentifier, bufferedTokenStart := 0, tokens := [],
        errors := [] } 3 =
    some
      { state := .inIdentifier, bufferedTokenStart := 0,
        tokens :=
          [{ kind := if is_keyword "mmk".data then TokenKind.keyword
                     else TokenKind.identifier,
             span := { start := 0,
                       length := if byteLen "mmk".data = 0 then 1
                                 else byteLen "mmk".data } }],
        errors := [] } ∧
    (is_keyword "mmk".data = true ↔
      "mmk".data ∈ ["let".data, "const".data, "if".data, "else".data,
        "while".data, "for".data, "function".data, "mmk".data]) :=
  identifier_keyword_law "mmk".data
    { state := .inIdentifier, bufferedTokenStart := 0, tokens := [],
      errors := [] }
    3 "mmk".data rfl (by decide)

/-- C8: lexing the literal input `"let value = 1;"` produces exactly the
claimed eight tokens and an empty error list. -/
theorem lex_let_value_assignment :
    lexStr "let value = 1;" =
      some ([create_token .keyword 0 3, create_token .whitespace 3 1,
             create_token .identifier 4 5, create_token .whitespace 9 1,
             create_token (.operator .equal) 10 1,
             create_token .whitespace 11 1, create_token .number 12 1,
             create_token .semicolon 13 1], []) := by
  decide

/-- C9: lexing is deterministic — two runs of `lex` on the same input (the
embedding of one run with a fresh `Lexer` and fresh `ErrorHandler`) yield
identical token lists and identical error lists. -/
theorem lex_deterministic (input : List Char) (ts₁ ts₂ : List Token)
    (es₁ es₂ : List LexerError) (h₁ : lex input = some (ts₁, es₁))
    (h₂ : lex input = some (ts₂, es₂)) : ts₁ = ts₂ ∧ es₁ = es₂ := by
  rw [h₁] at h₂
  simp only [Option.some.injEq, Prod.mk.injEq] at h₂
  exact h₂

/-- Witness for C9 at the concrete input `"1"`. -/
theorem lex_deterministic_witness :
    [create_token TokenKind.number 0 1] =
      [create_token TokenKind.number 0 1] ∧
    ([] : List LexerError) = [] :=
  lex_deterministic "1".data [create_token .number 0 1]
    [create_token .number 0 1] [] [] (by decide) (by decide)

/-- C10: no emitted token ever has kind `Operator(Invalid)`: for every
input on which `lex` returns, every token in the output differs from
`Operator(Invalid)` — an operator run buffers only the nine recognized
symbols, each of which resolves on its own, so even the invalid-run split
emits resolvable 1-character tokens. -/
theorem no_invalid_operator_token (input : List Char) (ts : List Token)
    (es : List LexerError) (h : lex input = some (ts, es)) :
    ∀ t ∈ ts, t.kind ≠ TokenKind.operator OperatorKind.invalid :=
  lex_good_operators h

/-- Witness for C10 at the concrete input `"+="`. -/
theorem no_invalid_operator_token_witness :
    (create_token (.operator .compoundAdd) 0 2).kind ≠
      TokenKind.operator OperatorKind.invalid :=
  no_invalid_operator_token "+=".data
    [create_token (.operator .compoundAdd) 0 2] [] (by decide)
    (create_token (.operator .compoundAdd) 0 2) (by decide)

end SimpleLexer
